import Mathlib

/-!
Verification development for the robotframework_backend service.

The definitions below are a shallow embedding of the Python sources under
`src/robotframework_backend/src/`.  Pure computations are translated into
executable Lean functions; the asyncio controller is modelled as an explicit
state machine whose atomic steps correspond to the code regions that contain
no `await` (and hence cannot be interleaved by the cooperative scheduler).
File-system paths are modelled as strings over `/`-separated components,
timestamps as natural numbers, and database tables as lists of records.
-/

namespace ATC

/-! ## Generic helpers -/

/-- Boolean list-prefix test (used to state the component-wise
"resolved path lies inside the root" property). -/
def pfxOf {α : Type} [DecidableEq α] : List α → List α → Bool
  | [], _ => true
  | x :: xs, y :: ys => x = y && pfxOf xs ys
  | _ :: _, [] => false

/-- Split a list on a separator element (model of Python `str.split("/")`
restricted to the path use-site). -/
def splitOnCh (sep : Char) : List Char → List (List Char)
  | [] => [[]]
  | c :: cs =>
    let r := splitOnCh sep cs
    if c = sep then [] :: r
    else match r with
      | [] => [[c]]
      | h :: t => (c :: h) :: t

/-! ## Path resolution — `src/api/config_service.py`, `_resolve_path`

```python
def _resolve_path(rel_path: str) -> Tuple[str, str]:
    base = settings.CONFIG_DIR
    abs_path = os.path.abspath(os.path.join(base, rel_path))
    if not abs_path.startswith(os.path.abspath(base)):
        raise ValueError("Path traversal not allowed")
    ext = os.path.splitext(abs_path)[1].lower()
    return abs_path, ext
```

`CONFIG_DIR` is modelled as an already-normalized absolute path given by its
list of components (`["cfg"]` stands for `"/cfg"`).  `os.path.join(base, rel)`
for a relative `rel` is the string `render base ++ "/" ++ rel`; `os.path.abspath`
normalizes it lexically (dropping empty and `"."` components, resolving `".."`
against the stack, clamping at the filesystem root). -/

/-- Lexical normalization of the component sequence of an absolute path,
as performed by `os.path.normpath`/`os.path.abspath`. -/
def normAbs (parts : List (List Char)) : List (List Char) :=
  parts.foldl
    (fun acc p =>
      if p = [] ∨ p = ['.'] then acc
      else if p = ['.', '.'] then acc.dropLast
      else acc ++ [p])
    []

/-- Render an absolute path from its components (inverse of splitting on
`/`): a leading `/` before each component, `"/"` for the filesystem root. -/
def renderAbs (cs : List (List Char)) : List Char :=
  match cs with
  | [] => ['/']
  | _ => (cs.map (fun c => '/' :: c)).flatten

/-- `os.path.abspath(os.path.join(base, rel))` for an absolute, normalized
`base` and a relative `rel`. -/
def pyAbsJoin (base : List (List Char)) (rel : List Char) : List (List Char) :=
  normAbs (base ++ splitOnCh '/' rel)

/-- Python `str.startswith` on character lists. -/
def pyStartsWith (s pre : List Char) : Bool := pfxOf pre s

/-- Extension extraction of `os.path.splitext(p)[1]` applied to the final
path component: the suffix starting at the last dot, except that the run of
leading dots of the component never starts an extension. -/
def extGo : Bool → Option (List Char) → List Char → Option (List Char)
  | _, cur, [] => cur
  | seen, _, '.' :: cs =>
    if seen then extGo seen (some ['.']) cs else extGo seen none cs
  | _, cur, c :: cs =>
    match cur with
    | some acc => extGo true (some (acc ++ [c])) cs
    | none => extGo true none cs

/-- `os.path.splitext(abs)[1].lower()` on a normalized absolute path. -/
def splitextLower (abs : List (List Char)) : List Char :=
  match abs.getLast? with
  | none => []
  | some nm => ((extGo false none nm).getD []).map Char.toLower

/-- Errors of the config store (`ValueError("Path traversal not allowed")`,
`ValueError("Unsupported config format...")`, `FileNotFoundError`,
plus a decode failure for unparseable stored text). -/
inductive ConfigErr where
  | pathTraversal
  | unsupportedFormat
  | notFound
  | decodeErr
deriving DecidableEq, Repr

/-- Model of `_resolve_path`: resolves `rel` against the config root `base`
and rejects the result when the rendered absolute path does not have the
rendered root as a **string** prefix (this is the check the code performs). -/
def resolve_path (base : List (List Char)) (rel : List Char) :
    Except ConfigErr (List (List Char) × List Char) :=
  let abs := pyAbsJoin base rel
  if pyStartsWith (renderAbs abs) (renderAbs base) then
    .ok (abs, splitextLower abs)
  else
    .error .pathTraversal

/-- The property the specification asks of path resolution: the resolved
path stays inside the configured root, i.e. the root's **components** are a
prefix of the resolved path's components. -/
def insideRoot (base abs : List (List Char)) : Bool := pfxOf base abs

/-! ## Database repositories — `src/db/repositories.py`

`TestRun` and `TestCaseResult` rows are modelled with the fields the claims
touch; timestamps are natural numbers supplied explicitly where the code
calls `datetime.utcnow()`. A table is a list of rows. -/

/-- A `TestRun` row (`src/db/models.py`): the fields used by
`finalize_test_run`, `get_run_stats` and the status state machine. -/
structure TestRun where
  id : Nat
  status : String
  start_time : Nat
  end_time : Option Nat
  passed : Nat
  failed : Nat
  total_cases : Nat
deriving DecidableEq, Repr

/-- A `TestCaseResult` row restricted to the columns that
`count_case_status` aggregates over. -/
structure CaseResult where
  test_run_id : Nat
  status : String
deriving DecidableEq, Repr

/-- `count_case_status(db, run_id)`: `(passed, failed, total)` where
`passed`/`failed` sum a CASE WHEN over `status` and `total` counts all case
results of the run. -/
def count_case_status (db : List CaseResult) (run_id : Nat) : Nat × Nat × Nat :=
  let rows := db.filter (fun r => r.test_run_id == run_id)
  (rows.countP (fun r => r.status == "passed"),
   rows.countP (fun r => r.status == "failed"),
   rows.length)

/-- The row update applied by `finalize_test_run` to the run with the given
id: **unconditionally overwrites** `end_time` (with the current time),
`status`, `passed` and `failed`. -/
def finUpd (run_id : Nat) (status : String) (passed failed now : Nat)
    (r : TestRun) : TestRun :=
  if r.id == run_id then
    { r with end_time := some now, status := status, passed := passed, failed := failed }
  else r

/-- `finalize_test_run(db, run_id, status, passed, failed)` looks the run up
by id; when absent it returns `None` and leaves the table unchanged; when
present it applies `finUpd` and returns the updated row. -/
def finalize_test_run (db : List TestRun) (run_id : Nat) (status : String)
    (passed failed : Nat) (now : Nat) : Option TestRun × List TestRun :=
  match db.find? (fun r => r.id == run_id) with
  | none => (none, db)
  | some r =>
    (some (finUpd run_id status passed failed now r),
     db.map (finUpd run_id status passed failed now))

/-- Status of a run looked up by id. -/
def statusOf (db : List TestRun) (run_id : Nat) : Option String :=
  (db.find? (fun r => r.id == run_id)).map (fun r => r.status)

/-- End time of a run looked up by id. -/
def endTimeOf (db : List TestRun) (run_id : Nat) : Option (Option Nat) :=
  (db.find? (fun r => r.id == run_id)).map (fun r => r.end_time)

/-! ## Execution task — `src/api/robot_runner.py`, `_execute_robot`

The loop body interacts with three external sources: the Robot invocation's
exit code `rc`, the case results recorded in the repository at the moment
`count_case_status` is queried, and the stop flag observed at the loop
boundary; an invocation may also raise.  One loop iteration's observations
are packaged as an `IterObs`; the whole planned iteration sequence is a list
(of length `loop or 1`).  DB log writes are accumulated in the result. -/

/-- Observations available to one loop iteration of `_execute_robot`. -/
structure IterObs where
  /-- Value of `self._stop_event.is_set()` at this iteration's boundary check. -/
  stopAtCheck : Bool
  /-- `some msg` when `run_cli` raises during this iteration. -/
  raises : Option String
  /-- Exit code returned by `run_cli`. -/
  rc : Int
  /-- Case-result table contents when `count_case_status` is queried. -/
  caseDb : List CaseResult
deriving DecidableEq, Repr

/-- The `if total == 0` fallback of `_execute_robot`: when the repository
recorded no case results, synthesize one pass (rc = 0) or one failure
(rc ≠ 0); otherwise keep the queried counts. -/
def synthCounts (counts : Nat × Nat × Nat) (rc : Int) : Nat × Nat × Nat :=
  if counts.2.2 = 0 then
    (if rc = 0 then (1, 0, 1) else (0, 1, 1))
  else counts

/-- Mutable loop state of `_execute_robot`: the running totals and the log
rows appended so far (`add_batch_log` strings, `add_fail_log`
(message, error_type) pairs). -/
structure LoopAcc where
  passed_total : Nat
  failed_total : Nat
  batchLogs : List String
  failLogs : List (String × String)
deriving DecidableEq, Repr

/-- Empty accumulator at loop entry. -/
def accInit : LoopAcc := ⟨0, 0, [], []⟩

/-- Batch-log summary line written after an iteration. -/
def batchMsg (i p f : Nat) (rc : Int) : String :=
  "Loop " ++ toString (i + 1) ++ " completed: passed=" ++ toString p ++
    ", failed=" ++ toString f ++ ", rc=" ++ toString rc

/-- Fail-log message written when an iteration had failures. -/
def failMsg (f i : Nat) : String :=
  toString f ++ " failures detected in loop " ++ toString (i + 1)

/-- One non-raising loop iteration: query (or synthesize) counts, accumulate
totals, append the batch-log line and, if failures occurred, a
`RobotFailure` fail-log entry. -/
def execIter (run_id i : Nat) (acc : LoopAcc) (obs : IterObs) : LoopAcc :=
  let c := synthCounts (count_case_status obs.caseDb run_id) obs.rc
  { passed_total := acc.passed_total + c.1,
    failed_total := acc.failed_total + c.2.1,
    batchLogs := acc.batchLogs ++ [batchMsg i c.1 c.2.1 obs.rc],
    failLogs := acc.failLogs ++
      (if c.2.1 > 0 then [(failMsg c.2.1 i, "RobotFailure")] else []) }

/-- The `for i in range(loop or 1)` loop: breaks when the stop flag is
observed, propagates a raise together with the state accumulated so far,
otherwise runs `execIter` on each planned iteration. -/
def execLoop (run_id : Nat) : Nat → List IterObs → LoopAcc →
    Except (String × LoopAcc) LoopAcc
  | _, [], acc => .ok acc
  | i, obs :: rest, acc =>
    if obs.stopAtCheck then .ok acc
    else match obs.raises with
      | some msg => .error (msg, acc)
      | none => execLoop run_id (i + 1) rest (execIter run_id i acc obs)

/-- `"stopped" if self._stop_event.is_set() else ("failed" if failed_total
> 0 else "passed")` — the status picked at finalization. -/
def final_status_of (stopSet : Bool) (failed_total : Nat) : String :=
  if stopSet then "stopped" else if failed_total > 0 then "failed" else "passed"

/-- Outcome of the whole execution task, as observable through the
repository and log tables. -/
structure ExecResult where
  finalStatus : String
  finalizedPassed : Nat
  finalizedFailed : Nat
  failLogs : List (String × String)
  batchLogs : List String
  /-- Number of `finalize_test_run` calls performed by the task. -/
  finalizeCount : Nat
deriving Repr

/-- `_execute_robot` after the loop: the `try` arm finalizes with the
priority status and appends a summary batch log; the `except Exception` arm
records the exception as a `RunnerError` fail-log entry and finalizes with
status `"error"` — the exception is consumed, never re-raised. -/
def executeRobot (run_id : Nat) (obs : List IterObs) (stopAtFinal : Bool) :
    ExecResult :=
  match execLoop run_id 0 obs accInit with
  | .ok acc =>
    let st := final_status_of stopAtFinal acc.failed_total
    { finalStatus := st,
      finalizedPassed := acc.passed_total,
      finalizedFailed := acc.failed_total,
      failLogs := acc.failLogs,
      batchLogs := acc.batchLogs ++
        ["Run finalized with status=" ++ st ++ ", passed=" ++
          toString acc.passed_total ++ ", failed=" ++ toString acc.failed_total],
      finalizeCount := 1 }
  | .error (msg, acc) =>
    { finalStatus := "error",
      finalizedPassed := acc.passed_total,
      finalizedFailed := acc.failed_total,
      failLogs := acc.failLogs ++ [(msg, "RunnerError")],
      batchLogs := acc.batchLogs,
      finalizeCount := 1 }

/-- `_execute_robot` end-to-end against the run table: performs the single
finalization the task issues, with the status/counts from `executeRobot`. -/
def executeRobotDb (db : List TestRun) (run_id : Nat) (obs : List IterObs)
    (stopAtFinal : Bool) (now : Nat) : ExecResult × List TestRun :=
  let r := executeRobot run_id obs stopAtFinal
  (r, (finalize_test_run db run_id r.finalStatus r.finalizedPassed r.finalizedFailed now).2)

/-- Per-iteration failure contributions of the executed (pre-stop,
pre-raise) iterations — used to state "any iteration recorded failures". -/
def executedFails (run_id : Nat) : List IterObs → List Nat
  | [] => []
  | obs :: rest =>
    if obs.stopAtCheck then []
    else match obs.raises with
      | some _ => []
      | none =>
        (synthCounts (count_case_status obs.caseDb run_id) obs.rc).2.1 ::
          executedFails run_id rest

/-! ## Expected-total accessors — `RobotRunController.set_expected_total`

```python
def set_expected_total(self, total: int) -> None:
    self._expected_total = max(0, int(total or 0))
```
`total` arrives as an `int` query parameter, so `int(total or 0)` is `total`
when `total ≠ 0` and `0` otherwise. -/

/-- Python `total or 0` on an integer. -/
def pyOrZero (n : Int) : Int := if n = 0 then 0 else n

/-- `self._expected_total = max(0, int(total or 0))`. -/
def set_expected_total (_cur total : Int) : Int :=
  max 0 (pyOrZero total)

/-- `return self._expected_total`. -/
def get_expected_total (cur : Int) : Int := cur

/-- Response of `GET`/`POST /expected_total`. -/
structure ExpectedTotalResponse where
  run_id : Nat
  expected_total : Int
deriving DecidableEq, Repr

/-- `POST /expected_total?run_id&total` (`src/api/routes.py`,
`set_expected_total`): stores the clamped total on the process-global
controller — the `run_id` query parameter is echoed but never consulted —
and returns the stored value. -/
def set_expected_total_route (run_id : Nat) (total : Int) (st : Int) :
    ExpectedTotalResponse × Int :=
  let st' := set_expected_total st total
  (⟨run_id, get_expected_total st'⟩, st')

/-- `GET /expected_total?run_id` (`src/api/routes.py`,
`get_expected_total`): reads the process-global value, whatever the
`run_id`. -/
def get_expected_total_route (run_id : Nat) (st : Int) : ExpectedTotalResponse :=
  ⟨run_id, get_expected_total st⟩

/-! ## Progress — `src/api/routes.py`, `progress`

```python
expected = controller.get_expected_total()
p, f, total = count_case_status(db, run_id)
completed = p + f if expected == 0 else min(expected, p + f)
percent = 0.0 if expected == 0 else round(100.0 * completed / float(expected), 2)
```
The float arithmetic is idealized over `ℚ`; `round(x, 2)` is rounding to a
multiple of 1/100 with ties to even (Python's rounding mode), applied on
both the code side and the specification side of the comparison. -/

/-- Round-half-to-even to an integer. -/
def roundHalfEven (x : ℚ) : ℤ :=
  let f : ℤ := x.floor
  let r : ℚ := x - (f : ℚ)
  if r < 1 / 2 then f
  else if 1 / 2 < r then f + 1
  else if f % 2 = 0 then f else f + 1

/-- Python `round(x, 2)`. -/
def round2 (x : ℚ) : ℚ := (roundHalfEven (x * 100) : ℚ) / 100

/-- Response of `GET /progress`. -/
structure ProgressResponse where
  run_id : Nat
  completed : Int
  total : Int
  percent : ℚ
deriving DecidableEq, Repr

/-- `GET /progress?run_id`. -/
def progress (run_id : Nat) (caseDb : List CaseResult) (expected : Int) :
    ProgressResponse :=
  let c := count_case_status caseDb run_id
  let pf : Int := (c.1 : Int) + (c.2.1 : Int)
  let completed : Int := if expected = 0 then pf else min expected pf
  let percent : ℚ :=
    if expected = 0 then 0 else round2 ((100 * completed : ℚ) / (expected : ℚ))
  ⟨run_id, completed, expected, percent⟩

/-! ## The controller as a state machine — `src/api/robot_runner.py`

The controller runs on a single-threaded cooperative (asyncio) event loop:
code between two `await` points executes without interleaving.  The bodies
of `run`'s critical section, of `stop`'s critical section, and of the
accessors contain no `await`, so each is one atomic step here; `run`'s
section is nevertheless split into its check (`acquireCheck`) and its launch
(`launch`) — both holding the lock — to exhibit that even under this finer
interleaving the lock makes check-and-launch mutually exclusive.  The
execution task's finalization is an independent step.  `stopDuringTask` is a
history (ghost) variable: it records whether `stop` was invoked while the
current task epoch was active; no code reads it. -/

/-- Progress of one `POST /run` request through `RobotRunController.run`. -/
inductive PStat where
  /-- Request issued, lock not yet acquired. -/
  | pending
  /-- Lock held, the `self._proc_task and not self._proc_task.done()` check
  passed (no active task); mkdirs/DB insert done, about to launch. -/
  | inCrit
  /-- Returned `{run_id, "running", logs_path}`. -/
  | ok (run_id : Nat)
  /-- `RuntimeError("A run is already in progress")`, surfaced as HTTP 409. -/
  | errAlready
deriving DecidableEq, Repr

/-- Global controller + scheduler state. -/
structure Sys where
  /-- One entry per start request in flight. -/
  procs : List PStat
  /-- Which start request currently holds `self._lock`. -/
  lockHeld : Option Nat
  /-- `self._proc_task is not None and not self._proc_task.done()`. -/
  taskActive : Bool
  /-- Number of currently active execution tasks (what the single-flight
  guarantee bounds). -/
  activeTasks : Nat
  /-- `self._current_run_id`. -/
  currentRunId : Option Nat
  /-- `self._stop_event.is_set()`. -/
  stopFlag : Bool
  /-- Ghost: a `stop` ran while the current task epoch was active. -/
  stopDuringTask : Bool
  /-- `self._expected_total`. -/
  expectedTotal : Int
  /-- Next fresh database run id. -/
  nextRunId : Nat
  /-- `(run_id, status)` pairs recorded by `finalize_test_run`, in order. -/
  finalized : List (Nat × String)
deriving DecidableEq, Repr

/-- Initial state for `n` start requests: fresh controller
(`__init__`: no task, flag clear, expected total 0). -/
def initSys (n : Nat) : Sys :=
  { procs := List.replicate n .pending,
    lockHeld := none,
    taskActive := false,
    activeTasks := 0,
    currentRunId := none,
    stopFlag := false,
    stopDuringTask := false,
    expectedTotal := 0,
    nextRunId := 1,
    finalized := [] }

/-- Scheduler events. -/
inductive Ev where
  /-- Start request `pid` acquires the lock and performs the
  already-running check (raising — and releasing the lock — when a task is
  active). -/
  | acquireCheck (pid : Nat)
  /-- Start request `pid` (holding the lock, check passed) persists the run,
  clears the stop flag, spawns the task and releases the lock. -/
  | launch (pid : Nat)
  /-- `stop()`: under the lock, sets the flag iff a task is active. -/
  | stopReq
  /-- The execution task finishes its loop and finalizes with the
  priority status computed from the stop flag and `failed` total. -/
  | finishTask (failed : Nat)
  /-- The execution task dies on an exception and finalizes with `"error"`. -/
  | finishError
  /-- `set_expected_total(n)`. -/
  | setTotal (n : Int)
deriving DecidableEq, Repr

/-- One scheduler step.  Events whose enabling condition does not hold
(e.g. launching without the lock) leave the state unchanged. -/
def sysStep (s : Sys) : Ev → Sys
  | .acquireCheck pid =>
    if s.procs[pid]? = some .pending ∧ s.lockHeld = none then
      if s.taskActive then
        { s with procs := s.procs.set pid .errAlready }
      else
        { s with procs := s.procs.set pid .inCrit, lockHeld := some pid }
    else s
  | .launch pid =>
    if s.procs[pid]? = some .inCrit ∧ s.lockHeld = some pid then
      { s with
        procs := s.procs.set pid (.ok s.nextRunId),
        lockHeld := none,
        taskActive := true,
        activeTasks := s.activeTasks + 1,
        currentRunId := some s.nextRunId,
        stopFlag := false,
        stopDuringTask := false,
        nextRunId := s.nextRunId + 1 }
    else s
  | .stopReq =>
    if s.lockHeld = none then
      if s.taskActive then { s with stopFlag := true, stopDuringTask := true }
      else s
    else s
  | .finishTask failed =>
    if s.taskActive then
      { s with
        taskActive := false,
        activeTasks := s.activeTasks - 1,
        currentRunId := none,
        finalized := s.finalized ++
          [(s.currentRunId.getD 0, final_status_of s.stopFlag failed)] }
    else s
  | .finishError =>
    if s.taskActive then
      { s with
        taskActive := false,
        activeTasks := s.activeTasks - 1,
        currentRunId := none,
        finalized := s.finalized ++ [(s.currentRunId.getD 0, "error")] }
    else s
  | .setTotal n =>
    { s with expectedTotal := set_expected_total s.expectedTotal n }

/-- Run a sequence of scheduler events. -/
def runEvents (s : Sys) (evs : List Ev) : Sys := evs.foldl sysStep s

/-! ## Log streaming — `RobotRunController.stream_log`

Once the log file has stopped growing and the stop flag and task-done
predicates have reached their final values, the generator's remaining
behaviour depends only on: the unread lines of the file, the flag, and
task-doneness.  `streamRun env lines fuel` runs the tail loop for at most
`fuel` iterations; `none` means the generator did not terminate within
`fuel` iterations (each idle iteration sleeps 0.5 s, so `none` for every
fuel is a hang). -/

/-- Environment of the tail loop after the file stops growing. -/
structure StreamEnv where
  /-- `self._stop_event.is_set()`. -/
  stopFlagSet : Bool
  /-- `not self._proc_task or self._proc_task.done()`. -/
  taskDone : Bool
deriving DecidableEq, Repr

/-- Python `str.rstrip()` whitespace set (the characters stripped from the
right of each emitted line). -/
def pyWs (c : Char) : Bool :=
  c = ' ' || c = '\n' || c = '\t' || c = '\r' || c = Char.ofNat 11 || c = Char.ofNat 12

/-- Python `line.rstrip()`. -/
def rstrip (s : String) : String :=
  String.mk ((s.data.reverse.dropWhile pyWs).reverse)

/-- The SSE chunk emitted for one log line. -/
def sseChunk (l : String) : String :=
  "event: message\ndata: " ++ rstrip l ++ "\n\n"

/-- The `while True` tail loop: emit the next line as a chunk if there is
one; otherwise break only when the stop flag is set **and** the task is
done, else sleep and retry. -/
def streamRun (env : StreamEnv) : List String → Nat → Option (List String)
  | _, 0 => none
  | [], fuel + 1 =>
    if env.stopFlagSet && env.taskDone then some [] else streamRun env [] fuel
  | l :: ls, fuel + 1 =>
    (streamRun env ls fuel).map (fun out => sseChunk l :: out)

/-- `stream_log`: with no associated (or nonexistent) log file, one
placeholder chunk then the stream ends; otherwise the tail loop on the
lines appended after opening. -/
def stream_log (logFile : Option (List String)) (env : StreamEnv) (fuel : Nat) :
    Option (List String) :=
  match logFile with
  | none => some ["event: message\ndata: No log available\n\n"]
  | some lines => streamRun env lines fuel

/-- The stream terminates (producing a finite chunk sequence) within some
number of loop iterations. -/
def streamTerminates (logFile : Option (List String)) (env : StreamEnv) : Prop :=
  ∃ fuel out, stream_log logFile env fuel = some out

/-! ## Structured config documents — `src/api/config_service.py`

`read_config`/`write_config` store structured documents (maps whose values
are maps, lists, strings, integers and booleans) through two encodings
selected by extension.  The JSON encoding models `json.dump(content,
indent=2, ensure_ascii=False)` / `json.loads`.

Modelled from the spec: the YAML codec.  PyYAML (`yaml.safe_dump` /
`yaml.safe_load`) is an external library whose code is not under `src/`;
the spec only states that a written document reads back structurally equal.
It is modelled here by the same document grammar serialized in flow style
(the JSON-compatible fragment of YAML, which `safe_load` parses to the same
document), with integer numbers; the codec is a genuine
encoder/parser pair, not an assumed inverse. -/


/-- A structured config document node.  List and map contents are
represented first-order by spine constructors (`anil`/`acons` for list
tails, `onil`/`ocons` for map tails) so that every function over documents
is plain structural recursion, fully evaluable inside the kernel; a node is
a *document value* / *list tail* / *map tail* according to the `wfJ` /
`wfA` / `wfO` predicates below. -/
inductive JVal where
  | s (v : String)
  | i (v : Int)
  | b (v : Bool)
  | arr (items : JVal)
  | obj (fields : JVal)
  | anil
  | acons (hd tl : JVal)
  | onil
  | ocons (k : String) (v tl : JVal)
deriving DecidableEq, Repr

/-- Opening brace character. -/
def lbrace : Char := Char.ofNat 123

/-- Closing brace character. -/
def rbrace : Char := Char.ofNat 125

/-- Decimal digit character. -/
def digitChar (d : Nat) : Char := Char.ofNat (48 + d)

/-- Most-significant-first decimal digits of `n` (`fuel ≥ n` suffices). -/
def decDigits : Nat → Nat → List Nat
  | 0, _ => []
  | _ + 1, 0 => []
  | fuel + 1, n =>
    if n = 0 then [] else decDigits fuel (n / 10) ++ [n % 10]

/-- Decimal representation of a natural number. -/
def decRepr (n : Nat) : List Char :=
  if n = 0 then ['0'] else (decDigits n n).map digitChar

/-- Decimal representation of an integer (Python `repr` of an `int`). -/
def encInt : Int → List Char
  | .ofNat n => decRepr n
  | .negSucc m => '-' :: decRepr (m + 1)

/-- Lower-case hexadecimal digit. -/
def hexDigit (n : Nat) : Char :=
  if n < 10 then Char.ofNat (48 + n) else Char.ofNat (87 + n)

/-- Escape one character of a JSON string, per `json.dump` with
`ensure_ascii=False`: quote, backslash and named control escapes, `\u00xx`
for the remaining control characters, everything else verbatim. -/
def escChar (c : Char) : List Char :=
  if c = '"' then ['\\', '"']
  else if c = '\\' then ['\\', '\\']
  else if c = '\n' then ['\\', 'n']
  else if c = '\t' then ['\\', 't']
  else if c = '\r' then ['\\', 'r']
  else if c.toNat = 8 then ['\\', 'b']
  else if c.toNat = 12 then ['\\', 'f']
  else if c.toNat < 32 then
    ['\\', 'u', '0', '0', hexDigit (c.toNat / 16), hexDigit (c.toNat % 16)]
  else [c]

/-- Serialize a string literal with its quotes. -/
def encStr (s : String) : List Char :=
  '"' :: (s.data.map escChar).flatten ++ ['"']

/-- Indentation of nested elements: `json.dump(indent=k)` adds `k` columns
per level; compact/flow mode adds none. -/
def indentStep (mode : Option Nat) : Nat := mode.getD 0

/-- Spaces. -/
def pad (n : Nat) : List Char := List.replicate n ' '

/-- Whitespace after an opening bracket. -/
def openSep (mode : Option Nat) (ind : Nat) : List Char :=
  match mode with
  | none => []
  | some k => '\n' :: pad (ind + k)

/-- Separator between consecutive elements (`", "` compact, `",\n" ++ pad`
indented). -/
def itemSep (mode : Option Nat) (ind : Nat) : List Char :=
  match mode with
  | none => [',', ' ']
  | some k => ',' :: '\n' :: pad (ind + k)

/-- Whitespace before a closing bracket. -/
def closeSep (mode : Option Nat) (ind : Nat) : List Char :=
  match mode with
  | none => []
  | some _ => '\n' :: pad ind

/-- Serialize a document node (`mode = some 2` is `json.dump(indent=2)`;
`mode = none` is the compact flow form used by the YAML model).  A spine
node serializes as the remaining elements of its container, each preceded
by the element separator. -/
def encVal (mode : Option Nat) (ind : Nat) : JVal → List Char
  | .s v => encStr v
  | .i v => encInt v
  | .b true => ['t', 'r', 'u', 'e']
  | .b false => ['f', 'a', 'l', 's', 'e']
  | .arr .anil => ['[', ']']
  | .arr (.acons h t) =>
    '[' :: (openSep mode ind ++ encVal mode (ind + indentStep mode) h ++
      encVal mode ind t ++ closeSep mode ind ++ [']'])
  | .arr _ => ['[', ']']
  | .obj .onil => [lbrace, rbrace]
  | .obj (.ocons k v t) =>
    lbrace :: (openSep mode ind ++
      (encStr k ++ ':' :: ' ' :: encVal mode (ind + indentStep mode) v) ++
      encVal mode ind t ++ closeSep mode ind ++ [rbrace])
  | .obj _ => [lbrace, rbrace]
  | .anil => []
  | .acons h t =>
    itemSep mode ind ++ encVal mode (ind + indentStep mode) h ++ encVal mode ind t
  | .onil => []
  | .ocons k v t =>
    itemSep mode ind ++
      (encStr k ++ ':' :: ' ' :: encVal mode (ind + indentStep mode) v) ++
      encVal mode ind t

/-- JSON insignificant whitespace (`json.loads` skips these). -/
def isJWsCh (c : Char) : Bool :=
  c = ' ' || c = '\n' || c = '\t' || c = '\r'

/-- Skip insignificant whitespace. -/
def skipWs : List Char → List Char
  | [] => []
  | c :: cs => if isJWsCh c then skipWs cs else c :: cs

/-- Decimal digit test. -/
def isDigitCh (c : Char) : Bool :=
  48 ≤ c.toNat && c.toNat ≤ 57

/-- Greedy decimal-number scan. -/
def pNatGo (acc : Nat) : List Char → Nat × List Char
  | [] => (acc, [])
  | c :: cs =>
    if isDigitCh c then pNatGo (acc * 10 + (c.toNat - 48)) cs else (acc, c :: cs)

/-- `noDigitHead l` — the scan for a number cannot continue into `l`. -/
def noDigitHead : List Char → Bool
  | [] => true
  | c :: _ => !isDigitCh c

/-- Value of a hexadecimal digit character. -/
def hexVal (c : Char) : Nat :=
  if 48 ≤ c.toNat ∧ c.toNat ≤ 57 then c.toNat - 48
  else if 97 ≤ c.toNat ∧ c.toNat ≤ 102 then c.toNat - 87
  else if 65 ≤ c.toNat ∧ c.toNat ≤ 70 then c.toNat - 55
  else 0

/-- Named escape decoding (`json.loads` string escapes other than `\u`). -/
def escDecode (e : Char) : Option Char :=
  if e = 'n' then some '\n'
  else if e = 't' then some '\t'
  else if e = 'r' then some '\r'
  else if e = 'b' then some (Char.ofNat 8)
  else if e = 'f' then some (Char.ofNat 12)
  else if e = '"' ∨ e = '\\' ∨ e = '/' then some e
  else none

/-- Parse the body of a string literal up to its closing quote
(fuel-bounded; one unit of fuel per decoded character). -/
def pStrGo : Nat → List Char → Option (List Char × List Char)
  | 0, _ => none
  | _ + 1, [] => none
  | fuel + 1, c :: r =>
    if c = '"' then some ([], r)
    else if c = '\\' then
      match r with
      | [] => none
      | e :: r2 =>
        if e = 'u' then
          match r2 with
          | a :: b :: c2 :: d :: r3 =>
            (pStrGo fuel r3).map (fun p =>
              (Char.ofNat
                  (hexVal a * 4096 + hexVal b * 256 + hexVal c2 * 16 + hexVal d) ::
                p.1, p.2))
          | _ => none
        else
          match escDecode e with
          | some ch => (pStrGo fuel r2).map (fun p => (ch :: p.1, p.2))
          | none => none
    else (pStrGo fuel r).map (fun p => (c :: p.1, p.2))

/-- Parse a string-literal body (the input length bounds the fuel). -/
def pStr (l : List Char) : Option (List Char × List Char) :=
  pStrGo (l.length + 1) l

mutual

/-- Parse one value (fuel-bounded recursive descent over the grammar the
serializer emits: strings, integers, booleans, lists, maps). -/
def pVal : Nat → List Char → Option (JVal × List Char)
  | 0, _ => none
  | fuel + 1, l =>
    match skipWs l with
    | [] => none
    | c :: r =>
      if c = lbrace then pObjBody fuel r
      else if c = '[' then pArrBody fuel r
      else if c = '"' then
        (pStr r).map (fun p => (JVal.s (String.mk p.1), p.2))
      else if c = 't' then
        match r with
        | 'r' :: 'u' :: 'e' :: r2 => some (JVal.b true, r2)
        | _ => none
      else if c = 'f' then
        match r with
        | 'a' :: 'l' :: 's' :: 'e' :: r2 => some (JVal.b false, r2)
        | _ => none
      else if c = '-' then
        match r with
        | d :: _ =>
          if isDigitCh d then
            let p := pNatGo 0 r
            some (JVal.i (-(p.1 : Int)), p.2)
          else none
        | [] => none
      else if isDigitCh c then
        let p := pNatGo 0 (c :: r)
        some (JVal.i (p.1 : Int), p.2)
      else none

/-- Parse one `"key" : value` field. -/
def pField : Nat → List Char → Option (String × JVal × List Char)
  | 0, _ => none
  | fuel + 1, l =>
    match skipWs l with
    | '"' :: r =>
      match pStr r with
      | some (k, r2) =>
        match skipWs r2 with
        | ':' :: r3 =>
          match pVal fuel r3 with
          | some (v, r4) => some (String.mk k, v, r4)
          | none => none
        | _ => none
      | none => none
    | _ => none

/-- Parse a map body after its opening brace. -/
def pObjBody : Nat → List Char → Option (JVal × List Char)
  | 0, _ => none
  | fuel + 1, l =>
    match skipWs l with
    | [] => none
    | c :: r =>
      if c = rbrace then some (JVal.obj .onil, r)
      else
        match pField fuel l with
        | some (k, v, r2) =>
          (pObjRest fuel r2).map (fun p => (JVal.obj (JVal.ocons k v p.1), p.2))
        | none => none

/-- Parse the remaining fields of a map after a field's value. -/
def pObjRest : Nat → List Char → Option (JVal × List Char)
  | 0, _ => none
  | fuel + 1, l =>
    match skipWs l with
    | [] => none
    | c :: r =>
      if c = rbrace then some (JVal.onil, r)
      else if c = ',' then
        match pField fuel r with
        | some (k, v, r2) =>
          (pObjRest fuel r2).map (fun p => (JVal.ocons k v p.1, p.2))
        | none => none
      else none

/-- Parse a list body after its opening bracket. -/
def pArrBody : Nat → List Char → Option (JVal × List Char)
  | 0, _ => none
  | fuel + 1, l =>
    match skipWs l with
    | [] => none
    | c :: r =>
      if c = ']' then some (JVal.arr .anil, r)
      else
        match pVal fuel l with
        | some (v, r2) =>
          (pArrRest fuel r2).map (fun p => (JVal.arr (JVal.acons v p.1), p.2))
        | none => none

/-- Parse the remaining elements of a list after an element. -/
def pArrRest : Nat → List Char → Option (JVal × List Char)
  | 0, _ => none
  | fuel + 1, l =>
    match skipWs l with
    | [] => none
    | c :: r =>
      if c = ']' then some (JVal.anil, r)
      else if c = ',' then
        match pVal fuel r with
        | some (v, r2) =>
          (pArrRest fuel r2).map (fun p => (JVal.acons v p.1, p.2))
        | none => none
      else none

end

/-- Fuel bound sufficient to parse a serialized node. -/
def sizeJ : JVal → Nat
  | .s _ => 1
  | .i _ => 1
  | .b _ => 1
  | .arr a => 1 + sizeJ a
  | .obj o => 1 + sizeJ o
  | .anil => 1
  | .acons h t => 1 + sizeJ h + sizeJ t
  | .onil => 1
  | .ocons _ v t => 1 + sizeJ v + sizeJ t

/-- Decode a serialized document: parse one value and require only
whitespace to remain (model of `json.loads` on the grammar the store
writes). -/
def loadsCh (l : List Char) : Option JVal :=
  match pVal (2 * l.length + 2) l with
  | some (v, rest) => if skipWs rest = [] then some v else none
  | none => none

/-- Key membership in a map tail. -/
def hasKey : JVal → String → Bool
  | .ocons k _ t, key => k == key || hasKey t key
  | _, _ => false

/-- Grammar roles of a node: `(document value, list tail, map tail)`.
A map tail is additionally required to have pairwise-distinct keys — the
domain on which an association spine faithfully models a Python dict. -/
def wfGo : JVal → Bool × Bool × Bool
  | .s _ => (true, false, false)
  | .i _ => (true, false, false)
  | .b _ => (true, false, false)
  | .arr a => ((wfGo a).2.1, false, false)
  | .obj o => ((wfGo o).2.2, false, false)
  | .anil => (false, true, false)
  | .acons h t => (false, (wfGo h).1 && (wfGo t).2.1, false)
  | .onil => (false, false, true)
  | .ocons k v t => (false, false, !hasKey t k && (wfGo v).1 && (wfGo t).2.2)

/-- `v` is a document value. -/
def wfJ (v : JVal) : Bool := (wfGo v).1

/-- `a` is a list tail. -/
def wfA (a : JVal) : Bool := (wfGo a).2.1

/-- `o` is a map tail with distinct keys. -/
def wfO (o : JVal) : Bool := (wfGo o).2.2

/-- `yaml.safe_dump` model (see the section comment): flow-style
serialization of the document with map tail `d`. -/
def yamlDump (d : JVal) : List Char := encVal none 0 (JVal.obj d)

/-- `json.dump(content, f, indent=2, ensure_ascii=False)` on the document
with map tail `d`. -/
def jsonDump (d : JVal) : List Char := encVal (some 2) 0 (JVal.obj d)

/-- Python truthiness of a document node (`0`, `""`, `[]`, `{}`, `False`
are falsy). -/
def pyTruthy : JVal → Bool
  | .s s => !s.data.isEmpty
  | .i n => !(n == 0)
  | .b b => b
  | .arr .anil => false
  | .arr _ => true
  | .obj .onil => false
  | .obj _ => true
  | _ => true

/-- Python `content or {}` on the (map tail of the) document argument of
`write_config`: the empty map is falsy and is replaced by the empty map. -/
def pyOrEmptyObj : JVal → JVal
  | .onil => .onil
  | d => d

/-- The model file system: newest-first association of absolute path to
stored text. -/
def FSt : Type := List (List Char × List Char)

/-- Store a file (whole-file overwrite). -/
def fsWrite (fs : FSt) (p text : List Char) : FSt := (p, text) :: fs

/-- Read a file. -/
def fsRead (fs : FSt) (p : List Char) : Option (List Char) :=
  (fs.find? (fun e => e.1 == p)).map (fun e => e.2)

/-- `write_config(rel_path, content)`: resolve (may fail with
`PathTraversal`), dispatch on the lower-cased extension, serialize
`content or {}` to the resolved file, return `content`.  `content` is given
by its map tail. -/
def write_config (base : List (List Char)) (fs : FSt) (rel : List Char)
    (content : JVal) : Except ConfigErr (FSt × JVal) :=
  match resolve_path base rel with
  | .error e => .error e
  | .ok (abs, ext) =>
    if ext = ".yaml".data ∨ ext = ".yml".data then
      .ok (fsWrite fs (renderAbs abs) (yamlDump (pyOrEmptyObj content)), content)
    else if ext = ".json".data then
      .ok (fsWrite fs (renderAbs abs) (jsonDump (pyOrEmptyObj content)), content)
    else .error .unsupportedFormat

/-- `read_config(rel_path)`: resolve, require the file to exist, dispatch on
the extension; the YAML branch applies `safe_load(text) or {}`, the JSON
branch parses `text or "{}"`. -/
def read_config (base : List (List Char)) (fs : FSt) (rel : List Char) :
    Except ConfigErr JVal :=
  match resolve_path base rel with
  | .error e => .error e
  | .ok (abs, ext) =>
    match fsRead fs (renderAbs abs) with
    | none => .error .notFound
    | some text =>
      if ext = ".yaml".data ∨ ext = ".yml".data then
        match loadsCh text with
        | some v => .ok (if pyTruthy v then v else JVal.obj .onil)
        | none => .error .decodeErr
      else if ext = ".json".data then
        match loadsCh (if text.isEmpty then [lbrace, rbrace] else text) with
        | some v => .ok v
        | none => .error .decodeErr
      else .error .unsupportedFormat

/-! # Theorems -/

/-! ## Helper lemmas -/

theorem max_pyOrZero (n : Int) : max 0 (pyOrZero n) = if 0 ≤ n then n else 0 := by
  unfold pyOrZero
  rcases le_or_lt n 0 with h | h
  · rcases eq_or_lt_of_le h with h0 | h0
    · simp [h0]
    · simp [show ¬ n = 0 by omega, max_eq_left h, show ¬ 0 ≤ n by omega]
  · simp [show ¬ n = 0 by omega, max_eq_right h.le, h.le]

theorem streamRun_no_stop (env : StreamEnv) (h : env.stopFlagSet = false) :
    ∀ fuel, streamRun env [] fuel = none := by
  intro fuel
  induction fuel with
  | zero => rfl
  | succ n ih => simp [streamRun, h, ih]

theorem streamRun_drain (env : StreamEnv) (h1 : env.stopFlagSet = true)
    (h2 : env.taskDone = true) :
    ∀ lines : List String,
      streamRun env lines (lines.length + 1) = some (lines.map sseChunk) := by
  intro lines
  induction lines with
  | nil => simp [streamRun, h1, h2]
  | cons l ls ih => simp [streamRun, ih]

theorem execLoop_failed_total (run_id : Nat) :
    ∀ (obs : List IterObs) (i : Nat) (acc acc' : LoopAcc),
      execLoop run_id i obs acc = .ok acc' →
      acc'.failed_total = acc.failed_total + (executedFails run_id obs).sum := by
  intro obs
  induction obs with
  | nil =>
    intro i acc acc' h
    simp [execLoop] at h
    simp [← h, executedFails]
  | cons o rest ih =>
    intro i acc acc' h
    by_cases hs : o.stopAtCheck
    · simp [execLoop, hs] at h
      simp [← h, executedFails, hs]
    · match hr : o.raises with
      | some msg => simp [execLoop, hs, hr] at h
      | none =>
        simp only [execLoop, hs, if_false, hr] at h
        have := ih (i + 1) _ _ h
        simp [executedFails, hs, hr, this, execIter]
        omega

theorem sum_pos_iff_exists (l : List Nat) : 0 < l.sum ↔ ∃ x ∈ l, 0 < x := by
  induction l with
  | nil => simp
  | cons a t ih =>
    simp only [List.sum_cons, List.mem_cons]
    constructor
    · intro h
      rcases Nat.eq_zero_or_pos a with ha | ha
      · have ht : 0 < t.sum := by omega
        obtain ⟨x, hx, hp⟩ := ih.mp ht
        exact ⟨x, Or.inr hx, hp⟩
      · exact ⟨a, Or.inl rfl, ha⟩
    · rintro ⟨x, hx | hx, hp⟩
      · omega
      · have := ih.mpr ⟨x, hx, hp⟩
        omega

/-! ## C5 — synthetic counts from the exit code -/

/-- C5: in each loop iteration of the execution task, after the runner
returns exit code `rc`, if the repository holds zero case results for the
run (`total = 0`) the iteration's counts are synthesized as exactly one
pass (`(1,0,1)`) when `rc = 0` and exactly one failure (`(0,1,1)`) when
`rc ≠ 0`; otherwise the queried counts are used unchanged; the iteration
accumulates exactly these (possibly synthesized) pass/fail counts. -/
theorem c5_synth_counts_from_rc (run_id i : Nat) (acc : LoopAcc) (obs : IterObs) :
    ((count_case_status obs.caseDb run_id).2.2 = 0 → obs.rc = 0 →
      synthCounts (count_case_status obs.caseDb run_id) obs.rc = (1, 0, 1)) ∧
    ((count_case_status obs.caseDb run_id).2.2 = 0 → obs.rc ≠ 0 →
      synthCounts (count_case_status obs.caseDb run_id) obs.rc = (0, 1, 1)) ∧
    ((count_case_status obs.caseDb run_id).2.2 ≠ 0 →
      synthCounts (count_case_status obs.caseDb run_id) obs.rc =
        count_case_status obs.caseDb run_id) ∧
    (execIter run_id i acc obs).passed_total =
      acc.passed_total + (synthCounts (count_case_status obs.caseDb run_id) obs.rc).1 ∧
    (execIter run_id i acc obs).failed_total =
      acc.failed_total + (synthCounts (count_case_status obs.caseDb run_id) obs.rc).2.1 := by
  refine ⟨fun h0 hrc => ?_, fun h0 hrc => ?_, fun h0 => ?_, ?_, ?_⟩
  · simp [synthCounts, h0, hrc]
  · simp [synthCounts, h0, hrc]
  · simp [synthCounts, h0]
  · simp [execIter]
  · simp [execIter]

/-- C5 witness: a concrete iteration with an empty case-result table and
exit code 0 synthesizes exactly one pass. -/
theorem c5_synth_counts_from_rc_witness :
    synthCounts (count_case_status [] 1) 0 = (1, 0, 1) :=
  (c5_synth_counts_from_rc 1 0 accInit ⟨false, none, 0, []⟩).1 (by decide) (by decide)

/-! ## C8 — progress percentage -/

/-- C8: for every run id and controller expected-total, the progress
percent returned by `GET /progress` is 0 when the expected total is 0 and
otherwise `100 * min(expected_total, completed) / expected_total` rounded
to two decimal places, where `completed` is the number of passed plus
failed case results recorded for the run. -/
theorem c8_progress_percent (run_id : Nat) (caseDb : List CaseResult)
    (expected : Int) :
    (progress run_id caseDb expected).percent =
      if expected = 0 then 0
      else
        round2 ((100 * (min expected
          (((count_case_status caseDb run_id).1 : Int) +
            ((count_case_status caseDb run_id).2.1 : Int)) : Int) : ℚ) /
          (expected : ℚ)) := by
  by_cases h : expected = 0
  · simp [progress, h]
  · simp only [progress, h, if_false]

/-! ## C3 — log-stream termination (corrected) -/

/-- C3 counterexample: with a log file associated, the execution task
completed, no further lines remaining, but no stop requested (the
cancellation flag clear), the stream never terminates — it keeps sleeping
and retrying forever instead of draining and closing, so completion of the
task alone does not end the stream. -/
theorem c3_stream_hangs_without_stop_flag :
    ¬ streamTerminates (some []) ⟨false, true⟩ := by
  rintro ⟨fuel, out, h⟩
  rw [show stream_log (some []) ⟨false, true⟩ fuel = streamRun ⟨false, true⟩ [] fuel
      from rfl, streamRun_no_stop ⟨false, true⟩ rfl fuel] at h
  exact Option.noConfusion h

/-- C3 (amended): with no log file associated, `stream_log` yields exactly
one placeholder chunk and terminates; with a log file, **provided the
cancellation flag is set** and the execution task has completed, it drains
the remaining lines — one chunk per line — and then terminates. -/
theorem c3_stream_drains_after_stop_and_done (env : StreamEnv)
    (h1 : env.stopFlagSet = true) (h2 : env.taskDone = true) :
    (∀ fuel, stream_log none env fuel =
      some ["event: message\ndata: No log available\n\n"]) ∧
    (∀ lines : List String,
      stream_log (some lines) env (lines.length + 1) =
        some (lines.map sseChunk)) := by
  refine ⟨fun fuel => rfl, fun lines => ?_⟩
  exact streamRun_drain env h1 h2 lines

/-- C3 witness: with the flag set and the task done, a two-line file is
drained into exactly its two chunks, and the no-file stream is the single
placeholder chunk. -/
theorem c3_stream_drains_after_stop_and_done_witness :
    stream_log none ⟨true, true⟩ 5 =
      some ["event: message\ndata: No log available\n\n"] ∧
    stream_log (some ["alpha", "beta "]) ⟨true, true⟩ 3 =
      some ["event: message\ndata: alpha\n\n", "event: message\ndata: beta\n\n"] := by
  refine ⟨(c3_stream_drains_after_stop_and_done ⟨true, true⟩ rfl rfl).1 5, ?_⟩
  have h := (c3_stream_drains_after_stop_and_done ⟨true, true⟩ rfl rfl).2
    ["alpha", "beta "]
  simpa [sseChunk, rstrip, pyWs] using h

/-! ## C9 — expected-total accessor -/

/-- C9: `setExpectedTotal(n)` followed by `getExpectedTotal()` returns `n`
when `n ≥ 0` and `0` when `n < 0`; the counter is one process-global value
not scoped to any run — the `run_id` used to set or read it is irrelevant —
and every controller step other than `set_expected_total` leaves it
untouched (it persists across runs until set again). -/
theorem c9_expected_total_clamped_global (st n : Int) (rid1 rid2 rid3 : Nat)
    (sys : Sys) (e : Ev) :
    (get_expected_total_route rid2
        (set_expected_total_route rid1 n st).2).expected_total =
      (if 0 ≤ n then n else 0) ∧
    (set_expected_total_route rid1 n st).2 = (set_expected_total_route rid3 n st).2 ∧
    (get_expected_total_route rid2 st).expected_total =
      (get_expected_total_route rid3 st).expected_total ∧
    ((∀ m : Int, e ≠ .setTotal m) →
      (sysStep sys e).expectedTotal = sys.expectedTotal) := by
  refine ⟨?_, rfl, rfl, fun hne => ?_⟩
  · simp only [get_expected_total_route, set_expected_total_route,
      get_expected_total, set_expected_total]
    exact max_pyOrZero n
  · cases e with
    | acquireCheck pid => simp only [sysStep]; split_ifs <;> rfl
    | launch pid => simp only [sysStep]; split_ifs <;> rfl
    | stopReq => simp only [sysStep]; split_ifs <;> rfl
    | finishTask failed => simp only [sysStep]; split_ifs <;> rfl
    | finishError => simp only [sysStep]; split_ifs <;> rfl
    | setTotal m => exact absurd rfl (hne m)

/-- C9 witness: setting −3 under one run id and reading under another
yields 0, and a stop request leaves the stored value unchanged. -/
theorem c9_expected_total_clamped_global_witness :
    (get_expected_total_route 7
        (set_expected_total_route 3 (-3) 5).2).expected_total = 0 ∧
    (sysStep (initSys 1) .stopReq).expectedTotal = (initSys 1).expectedTotal := by
  have h := c9_expected_total_clamped_global 5 (-3) 3 7 9 (initSys 1) .stopReq
  refine ⟨by rw [h.1]; decide, h.2.2.2 (fun m hm => Ev.noConfusion hm)⟩

theorem finUpd_id (rid : Nat) (st : String) (p f now : Nat) (r : TestRun) :
    (finUpd rid st p f now r).id = r.id := by
  unfold finUpd
  split <;> rfl

theorem find?_map_finUpd (db : List TestRun) (rid : Nat) (st : String)
    (p f now : Nat) :
    (db.map (finUpd rid st p f now)).find? (fun r => r.id == rid) =
      (db.find? (fun r => r.id == rid)).map (finUpd rid st p f now) := by
  rw [List.find?_map]
  have hcomp : ((fun r : TestRun => r.id == rid) ∘ finUpd rid st p f now) =
      fun r : TestRun => r.id == rid := by
    funext x
    simp only [Function.comp_apply]
    rw [finUpd_id]
  rw [hcomp]

theorem finalize_found (d : List TestRun) (rid : Nat) (s' : String)
    (q q2 t : Nat) (hd : (d.find? (fun r => r.id == rid)).isSome = true) :
    statusOf (finalize_test_run d rid s' q q2 t).2 rid = some s' ∧
    endTimeOf (finalize_test_run d rid s' q q2 t).2 rid = some (some t) ∧
    ((finalize_test_run d rid s' q q2 t).2.find?
      (fun r => r.id == rid)).isSome = true := by
  obtain ⟨r1, hr1⟩ := Option.isSome_iff_exists.mp hd
  have hid1 : (r1.id == rid) = true := by simpa using List.find?_some hr1
  have hsnd : (finalize_test_run d rid s' q q2 t).2 =
      d.map (finUpd rid s' q q2 t) := by
    simp only [finalize_test_run, hr1]
  refine ⟨?_, ?_, ?_⟩
  · unfold statusOf
    rw [hsnd, find?_map_finUpd, hr1, Option.map_some']
    simp [finUpd, hid1]
  · unfold endTimeOf
    rw [hsnd, find?_map_finUpd, hr1, Option.map_some']
    simp [finUpd, hid1]
  · rw [hsnd, find?_map_finUpd, hr1]
    rfl

/-! ## Controller machine invariant (for C1 and C10) -/

/-- Inductive invariant of the controller machine: the active-task count
matches the task flag; a start request inside the critical section (past
the already-running check, before the launch) holds the lock and saw no
active task; and while a task is active, the stop flag can only have been
set by a stop request issued during this task's epoch. -/
def SysInv (s : Sys) : Prop :=
  s.activeTasks = (if s.taskActive then 1 else 0) ∧
  (∀ pid, s.procs[pid]? = some .inCrit →
    s.lockHeld = some pid ∧ s.taskActive = false) ∧
  (s.stopFlag = true → s.taskActive = true → s.stopDuringTask = true)

theorem sysInv_init (n : Nat) : SysInv (initSys n) := by
  refine ⟨rfl, fun pid h => ?_, fun h _ => ?_⟩
  · rw [show (initSys n).procs = List.replicate n PStat.pending from rfl,
      List.getElem?_replicate] at h
    by_cases hlt : pid < n
    · rw [if_pos hlt] at h
      simp at h
    · rw [if_neg hlt] at h
      exact Option.noConfusion h
  · exact Bool.noConfusion h

theorem sysInv_step (s : Sys) (e : Ev) (h : SysInv s) : SysInv (sysStep s e) := by
  obtain ⟨hcount, hcrit, hstop⟩ := h
  cases e with
  | acquireCheck pid =>
    simp only [sysStep]
    split_ifs with hen hact
    · refine ⟨hcount, fun pid2 h2 => ?_, hstop⟩
      rw [List.getElem?_set] at h2
      by_cases he : pid = pid2
      · rw [if_pos he] at h2
        by_cases hl : pid < s.procs.length
        · rw [if_pos hl] at h2
          simp at h2
        · rw [if_neg hl] at h2
          exact Option.noConfusion h2
      · rw [if_neg he] at h2
        exact hcrit pid2 h2
    · refine ⟨hcount, fun pid2 h2 => ?_, hstop⟩
      rw [List.getElem?_set] at h2
      by_cases he : pid = pid2
      · subst he
        exact ⟨rfl, by simpa using hact⟩
      · rw [if_neg he] at h2
        obtain ⟨hl2, _⟩ := hcrit pid2 h2
        rw [hen.2] at hl2
        exact Option.noConfusion hl2
    · exact ⟨hcount, hcrit, hstop⟩
  | launch pid =>
    simp only [sysStep]
    split_ifs with hen
    · obtain ⟨_, htaskf⟩ := hcrit pid hen.1
      refine ⟨?_, fun pid2 h2 => ?_, fun hflag _ => ?_⟩
      · simp [hcount, htaskf]
      · rw [List.getElem?_set] at h2
        by_cases he : pid = pid2
        · rw [if_pos he] at h2
          by_cases hl : pid < s.procs.length
          · rw [if_pos hl] at h2
            simp at h2
          · rw [if_neg hl] at h2
            exact Option.noConfusion h2
        · rw [if_neg he] at h2
          obtain ⟨hl2, _⟩ := hcrit pid2 h2
          have hpp := hen.2.symm.trans hl2
          injection hpp with hpp2
          exact absurd hpp2 he
      · exact Bool.noConfusion hflag
    · exact ⟨hcount, hcrit, hstop⟩
  | stopReq =>
    simp only [sysStep]
    split_ifs with hlock hact
    · exact ⟨hcount, fun pid2 h2 => hcrit pid2 h2, fun _ _ => rfl⟩
    · exact ⟨hcount, hcrit, hstop⟩
    · exact ⟨hcount, hcrit, hstop⟩
  | finishTask failed =>
    simp only [sysStep]
    split_ifs with hact
    · refine ⟨by simp [hcount, hact], fun pid2 h2 => ?_, fun _ hta => ?_⟩
      · obtain ⟨hl2, htf⟩ := hcrit pid2 h2
        rw [hact] at htf
        exact Bool.noConfusion htf
      · exact Bool.noConfusion hta
    · exact ⟨hcount, hcrit, hstop⟩
  | finishError =>
    simp only [sysStep]
    split_ifs with hact
    · refine ⟨by simp [hcount, hact], fun pid2 h2 => ?_, fun _ hta => ?_⟩
      · obtain ⟨hl2, htf⟩ := hcrit pid2 h2
        rw [hact] at htf
        exact Bool.noConfusion htf
      · exact Bool.noConfusion hta
    · exact ⟨hcount, hcrit, hstop⟩
  | setTotal m =>
    exact ⟨hcount, hcrit, hstop⟩

theorem sysInv_runEvents (s : Sys) (evs : List Ev) (h : SysInv s) :
    SysInv (runEvents s evs) := by
  induction evs generalizing s with
  | nil => exact h
  | cons e rest ih => exact ih (sysStep s e) (sysInv_step s e h)

/-! ## Path prefix lemmas (for C6) -/

theorem pfxOf_append_same {α : Type} [DecidableEq α] (l u v : List α) :
    pfxOf (l ++ u) (l ++ v) = pfxOf u v := by
  induction l with
  | nil => rfl
  | cons x t ih => simp [pfxOf, ih]

theorem pfxOf_flatten_slash (bs as : List (List Char))
    (h : pfxOf bs as = true) :
    pfxOf ((bs.map (fun c => '/' :: c)).flatten)
      ((as.map (fun c => '/' :: c)).flatten) = true := by
  induction bs generalizing as with
  | nil => rfl
  | cons b bs' ih =>
    cases as with
    | nil => exact absurd h (by simp [pfxOf])
    | cons a as' =>
      simp only [pfxOf, Bool.and_eq_true, decide_eq_true_eq] at h
      obtain ⟨hba, htail⟩ := h
      subst hba
      simp only [List.map_cons, List.flatten_cons]
      rw [show ('/' :: b) ++ (bs'.map (fun c => '/' :: c)).flatten =
          ('/' :: b) ++ (bs'.map (fun c => '/' :: c)).flatten from rfl,
        pfxOf_append_same]
      exact ih as' htail

/-- A path whose components extend the root's components also has the
root's rendered string as a string prefix: the `startswith` check never
rejects a path that is inside the root. -/
theorem render_pfx (base abs : List (List Char)) (h : pfxOf base abs = true) :
    pyStartsWith (renderAbs abs) (renderAbs base) = true := by
  unfold pyStartsWith
  cases base with
  | nil =>
    cases abs with
    | nil => rfl
    | cons a as => simp [renderAbs, pfxOf]
  | cons b bs =>
    cases abs with
    | nil => exact absurd h (by simp [pfxOf])
    | cons a as =>
      simp only [pfxOf, Bool.and_eq_true, decide_eq_true_eq] at h
      obtain ⟨hba, htail⟩ := h
      subst hba
      show pfxOf ((((b :: bs).map (fun c => '/' :: c))).flatten)
        ((((b :: as).map (fun c => '/' :: c))).flatten) = true
      simp only [List.map_cons, List.flatten_cons]
      rw [pfxOf_append_same]
      exact pfxOf_flatten_slash bs as htail

/-! ## C6 — path traversal check (code bug) -/

/-- C6: the claim's iff fails on the code.  Evaluating the embedded
`_resolve_path` at the failing input: with config root `/cfg`, the relative
path `../cfgx/a.yaml` resolves to `/cfgx/a.yaml` — outside the root, in a
sibling directory whose name merely extends the root's name — yet the
string-prefix `startswith` check accepts it and no `PathTraversal` is
raised.  The error is one-sided: every path the check does reject is
genuinely outside the root. -/
theorem c6_traversal_check_accepts_sibling_escape :
    resolve_path [['c', 'f', 'g']] ("../cfgx/a.yaml".data) =
      .ok ([['c', 'f', 'g', 'x'], "a.yaml".data], ".yaml".data) ∧
    insideRoot [['c', 'f', 'g']]
      (pyAbsJoin [['c', 'f', 'g']] ("../cfgx/a.yaml".data)) = false ∧
    (∀ base rel, resolve_path base rel = .error .pathTraversal →
      insideRoot base (pyAbsJoin base rel) = false) := by
  refine ⟨rfl, by decide, fun base rel hres => ?_⟩
  by_cases hin : insideRoot base (pyAbsJoin base rel) = true
  · exfalso
    have hsw := render_pfx base (pyAbsJoin base rel) hin
    unfold resolve_path at hres
    rw [if_pos hsw] at hres
    exact Except.noConfusion hres
  · simpa using hin

/-- C6 witness for the universally quantified direction: a rejected path
(`../esc.yaml` under root `/x`) is indeed outside the root. -/
theorem c6_traversal_check_accepts_sibling_escape_witness :
    insideRoot [['x']] (pyAbsJoin [['x']] ("../esc.yaml".data)) = false :=
  (c6_traversal_check_accepts_sibling_escape).2.2 [['x']]
    ("../esc.yaml".data) rfl

/-! ## C1 — single-flight start -/

/-- C1: under every interleaving of start requests, stop requests, task
finalizations and accessor calls, at most one execution task is ever active
(the check and the launch both run under the controller lock); and a start
request that acquires the lock while a task is active fails with
`AlreadyRunning` (HTTP 409) leaving the active run's identifier, task,
stop flag and recorded state untouched. -/
theorem c1_single_flight_already_running (n : Nat) (evs : List Ev) (pid : Nat) :
    (runEvents (initSys n) evs).activeTasks ≤ 1 ∧
    ((runEvents (initSys n) evs).taskActive = true →
      (runEvents (initSys n) evs).procs[pid]? = some .pending →
      (runEvents (initSys n) evs).lockHeld = none →
      (sysStep (runEvents (initSys n) evs) (.acquireCheck pid)).procs[pid]? =
          some .errAlready ∧
      (sysStep (runEvents (initSys n) evs) (.acquireCheck pid)).currentRunId =
          (runEvents (initSys n) evs).currentRunId ∧
      (sysStep (runEvents (initSys n) evs) (.acquireCheck pid)).taskActive =
          (runEvents (initSys n) evs).taskActive ∧
      (sysStep (runEvents (initSys n) evs) (.acquireCheck pid)).activeTasks =
          (runEvents (initSys n) evs).activeTasks ∧
      (sysStep (runEvents (initSys n) evs) (.acquireCheck pid)).stopFlag =
          (runEvents (initSys n) evs).stopFlag ∧
      (sysStep (runEvents (initSys n) evs) (.acquireCheck pid)).finalized =
          (runEvents (initSys n) evs).finalized) := by
  have hinv := sysInv_runEvents (initSys n) evs (sysInv_init n)
  constructor
  · rw [hinv.1]
    split_ifs <;> omega
  · intro hta hp hl
    obtain ⟨hlt, _⟩ := List.getElem?_eq_some_iff.mp hp
    simp only [sysStep]
    rw [if_pos ⟨hp, hl⟩, if_pos hta]
    exact ⟨by rw [List.getElem?_set, if_pos rfl, if_pos hlt], rfl, rfl, rfl, rfl, rfl⟩

/-- C1 witness: from a fresh controller, one start launches a run; a second
start request that then performs its check fails with `AlreadyRunning` and
leaves the run state alone, and the active-task count never exceeds one. -/
theorem c1_single_flight_already_running_witness :
    (runEvents (initSys 2) [.acquireCheck 0, .launch 0]).activeTasks ≤ 1 ∧
    (sysStep (runEvents (initSys 2) [.acquireCheck 0, .launch 0])
        (.acquireCheck 1)).procs[1]? = some .errAlready ∧
    (sysStep (runEvents (initSys 2) [.acquireCheck 0, .launch 0])
        (.acquireCheck 1)).currentRunId =
      (runEvents (initSys 2) [.acquireCheck 0, .launch 0]).currentRunId := by
  have h := c1_single_flight_already_running 2 [.acquireCheck 0, .launch 0] 1
  have h2 := h.2 (by decide) (by decide) (by decide)
  exact ⟨h.1, h2.1, h2.2.1⟩

/-! ## C10 — no stale cancellation -/

/-- C10: a run is only finalized with status `stopped` when a stop request
was issued while that run's own execution task was active: the launch step
clears the cancellation flag (and the stop-during-epoch history variable),
a stop request with no active task leaves the flag unchanged, and any
`stopped` finalization implies the history variable — set only by a stop
during the current epoch — is true. -/
theorem c10_stopped_only_after_stop_in_epoch (n : Nat) (evs : List Ev)
    (failed rid pid : Nat) :
    ((sysStep (runEvents (initSys n) evs) (.finishTask failed)).finalized =
        (runEvents (initSys n) evs).finalized ++ [(rid, "stopped")] →
      (runEvents (initSys n) evs).stopDuringTask = true) ∧
    ((runEvents (initSys n) evs).procs[pid]? = some .inCrit →
      (runEvents (initSys n) evs).lockHeld = some pid →
      (sysStep (runEvents (initSys n) evs) (.launch pid)).stopFlag = false ∧
      (sysStep (runEvents (initSys n) evs) (.launch pid)).stopDuringTask = false) ∧
    ((runEvents (initSys n) evs).taskActive = false →
      (sysStep (runEvents (initSys n) evs) .stopReq).stopFlag =
        (runEvents (initSys n) evs).stopFlag) := by
  have hinv := sysInv_runEvents (initSys n) evs (sysInv_init n)
  refine ⟨fun hfin => ?_, fun hp hl => ?_, fun hta => ?_⟩
  · by_cases hact : (runEvents (initSys n) evs).taskActive = true
    · simp only [sysStep, if_pos hact] at hfin
      have hlast := List.append_cancel_left hfin
      have hst : final_status_of (runEvents (initSys n) evs).stopFlag failed =
          "stopped" := by
        injection hlast with hh _
        injection hh with _ hh2
      by_cases hsf : (runEvents (initSys n) evs).stopFlag = true
      · exact hinv.2.2 hsf hact
      · exfalso
        rw [Bool.not_eq_true] at hsf
        unfold final_status_of at hst
        rw [hsf] at hst
        simp only [Bool.false_eq_true, if_false] at hst
        by_cases hfp : failed > 0
        · rw [if_pos hfp] at hst
          exact absurd hst (by decide)
        · rw [if_neg hfp] at hst
          exact absurd hst (by decide)
    · rw [Bool.not_eq_true] at hact
      simp only [sysStep, hact] at hfin
      have := congrArg List.length hfin
      simp at this
  · simp only [sysStep]
    rw [if_pos ⟨hp, hl⟩]
    exact ⟨rfl, rfl⟩
  · simp only [sysStep]
    by_cases hlock : (runEvents (initSys n) evs).lockHeld = none
    · rw [if_pos hlock, hta]
      simp
    · rw [if_neg hlock]

/-! ## Codec lemmas (for C7) -/

/-- A digit never satisfies the whitespace test. -/
theorem ws_false_of_digit (c : Char) (h : isDigitCh c = true) :
    isJWsCh c = false := by
  unfold isJWsCh
  simp only [Bool.or_eq_false_iff, decide_eq_false_iff_not]
  refine ⟨⟨⟨fun he => ?_, fun he => ?_⟩, fun he => ?_⟩, fun he => ?_⟩ <;>
    (subst he; exact absurd h (by decide))

/-- A digit differs from any fixed non-digit character. -/
theorem ne_of_digit (c x : Char) (h : isDigitCh c = true)
    (hx : isDigitCh x = false) : ¬(c = x) := by
  intro he
  subst he
  rw [h] at hx
  exact Bool.noConfusion hx

theorem skipWs_append_allWs (ws l : List Char) (h : ws.all isJWsCh = true) :
    skipWs (ws ++ l) = skipWs l := by
  induction ws with
  | nil => rfl
  | cons c t ih =>
    simp only [List.all_cons, Bool.and_eq_true] at h
    simp only [List.cons_append, skipWs, h.1, if_true]
    exact ih h.2

theorem skipWs_cons_not_ws (c : Char) (l : List Char) (h : isJWsCh c = false) :
    skipWs (c :: l) = c :: l := by
  simp [skipWs, h]

theorem pad_allWs (n : Nat) : (pad n).all isJWsCh = true := by
  have hrep : ∀ m, (List.replicate m ' ').all isJWsCh = true := by
    intro m
    induction m with
    | zero => rfl
    | succ k ih =>
      rw [List.replicate_succ, List.all_cons, ih]
      decide
  exact hrep n

theorem openSep_allWs (mode : Option Nat) (ind : Nat) :
    (openSep mode ind).all isJWsCh = true := by
  cases mode with
  | none => rfl
  | some k =>
    rw [show openSep (some k) ind = '\n' :: pad (ind + k) from rfl,
      List.all_cons, pad_allWs]
    decide

theorem closeSep_allWs (mode : Option Nat) (ind : Nat) :
    (closeSep mode ind).all isJWsCh = true := by
  cases mode with
  | none => rfl
  | some k =>
    rw [show closeSep (some k) ind = '\n' :: pad ind from rfl,
      List.all_cons, pad_allWs]
    decide

theorem itemSep_eq (mode : Option Nat) (ind : Nat) :
    ∃ ws, itemSep mode ind = ',' :: ws ∧ ws.all isJWsCh = true := by
  cases mode with
  | none => exact ⟨[' '], rfl, rfl⟩
  | some k =>
    refine ⟨'\n' :: pad (ind + k), rfl, ?_⟩
    rw [List.all_cons, pad_allWs]
    decide

theorem pVal_congr (fuel : Nat) (l1 l2 : List Char) (h : skipWs l1 = skipWs l2) :
    pVal fuel l1 = pVal fuel l2 := by
  cases fuel with
  | zero => rfl
  | succ f => simp only [pVal, h]

theorem pField_congr (fuel : Nat) (l1 l2 : List Char)
    (h : skipWs l1 = skipWs l2) : pField fuel l1 = pField fuel l2 := by
  cases fuel with
  | zero => rfl
  | succ f => simp only [pField, h]

theorem pArrBody_congr (fuel : Nat) (l1 l2 : List Char)
    (h : skipWs l1 = skipWs l2) : pArrBody fuel l1 = pArrBody fuel l2 := by
  cases fuel with
  | zero => rfl
  | succ f => simp only [pArrBody, h, pVal_congr f l1 l2 h]

theorem pObjBody_congr (fuel : Nat) (l1 l2 : List Char)
    (h : skipWs l1 = skipWs l2) : pObjBody fuel l1 = pObjBody fuel l2 := by
  cases fuel with
  | zero => rfl
  | succ f => simp only [pObjBody, h, pField_congr f l1 l2 h]

theorem pArrRest_congr (fuel : Nat) (l1 l2 : List Char)
    (h : skipWs l1 = skipWs l2) : pArrRest fuel l1 = pArrRest fuel l2 := by
  cases fuel with
  | zero => rfl
  | succ f => simp only [pArrRest, h]

theorem pObjRest_congr (fuel : Nat) (l1 l2 : List Char)
    (h : skipWs l1 = skipWs l2) : pObjRest fuel l1 = pObjRest fuel l2 := by
  cases fuel with
  | zero => rfl
  | succ f => simp only [pObjRest, h]

theorem decDigits_lt (f : Nat) : ∀ n d, d ∈ decDigits f n → d < 10 := by
  induction f with
  | zero => intro n d h; exact absurd h (by simp [decDigits])
  | succ f2 ih =>
    intro n d h
    match n with
    | 0 => exact absurd h (by simp [decDigits])
    | n + 1 =>
      simp only [decDigits, if_neg (Nat.succ_ne_zero n), List.mem_append,
        List.mem_singleton] at h
      rcases h with h | h
      · exact ih _ _ h
      · subst h
        exact Nat.mod_lt _ (by omega)

theorem decDigits_ne_nil (f n : Nat) (h0 : 0 < n) (hf : n ≤ f) :
    decDigits f n ≠ [] := by
  match f with
  | 0 => exact absurd h0 (by omega)
  | f2 + 1 =>
    match n, h0 with
    | n + 1, _ => simp [decDigits]

theorem digitChar_toNat (d : Nat) (h : d < 10) :
    (digitChar d).toNat = 48 + d := by
  interval_cases d <;> rfl

theorem digitChar_isDigit (d : Nat) (h : d < 10) :
    isDigitCh (digitChar d) = true := by
  interval_cases d <;> rfl

theorem pNatGo_digits (ds : List Nat) : ∀ (acc : Nat) (rest : List Char),
    (∀ d ∈ ds, d < 10) → noDigitHead rest = true →
    pNatGo acc (ds.map digitChar ++ rest) =
      (ds.foldl (fun a d => a * 10 + d) acc, rest) := by
  induction ds with
  | nil =>
    intro acc rest _ hnd
    cases rest with
    | nil => rfl
    | cons c t =>
      simp only [noDigitHead, Bool.not_eq_true'] at hnd
      simp [pNatGo, hnd]
  | cons d ds2 ih =>
    intro acc rest hlt hnd
    have hd : d < 10 := hlt d (by simp)
    simp only [List.map_cons, List.cons_append, pNatGo,
      digitChar_isDigit d hd, if_true]
    rw [digitChar_toNat d hd, show 48 + d - 48 = d by omega]
    exact ih _ rest (fun x hx => hlt x (by simp [hx])) hnd

theorem foldl_decDigits (f : Nat) : ∀ n acc, n ≤ f →
    (decDigits f n).foldl (fun a d => a * 10 + d) acc =
      acc * 10 ^ (decDigits f n).length + n := by
  induction f with
  | zero =>
    intro n acc h
    have : n = 0 := by omega
    subst this
    simp [decDigits]
  | succ f2 ih =>
    intro n acc h
    match n with
    | 0 => simp [decDigits]
    | n + 1 =>
      simp only [decDigits, if_neg (Nat.succ_ne_zero n)]
      rw [List.foldl_append]
      have hdiv : (n + 1) / 10 ≤ f2 := by
        have := Nat.div_lt_self (Nat.succ_pos n) (by omega : 1 < 10)
        omega
      rw [ih ((n + 1) / 10) acc hdiv]
      simp only [List.foldl_cons, List.foldl_nil, List.length_append,
        List.length_singleton]
      rw [pow_succ]
      have hmod := Nat.div_add_mod (n + 1) 10
      ring_nf
      omega

theorem decRepr_parse (n : Nat) (rest : List Char) (hnd : noDigitHead rest = true) :
    pNatGo 0 (decRepr n ++ rest) = (n, rest) := by
  by_cases h0 : n = 0
  · subst h0
    unfold decRepr
    rw [if_pos rfl,
      show (['0'] : List Char) = [0].map digitChar from rfl,
      pNatGo_digits [0] 0 rest (by simp) hnd]
    rfl
  · unfold decRepr
    rw [if_neg h0,
      pNatGo_digits (decDigits n n) 0 rest (fun d hd => decDigits_lt n n d hd) hnd,
      foldl_decDigits n n 0 (le_refl n)]
    simp

theorem decRepr_head (n : Nat) :
    ∃ d t, decRepr n = d :: t ∧ isDigitCh d = true := by
  by_cases h0 : n = 0
  · subst h0
    exact ⟨'0', [], rfl, rfl⟩
  · unfold decRepr
    rw [if_neg h0]
    have hne : decDigits n n ≠ [] :=
      decDigits_ne_nil n n (by omega) (le_refl n)
    match hd : decDigits n n with
    | [] => exact absurd hd hne
    | d :: t =>
      have hlt : d < 10 := decDigits_lt n n d (by rw [hd]; simp)
      exact ⟨digitChar d, t.map digitChar, rfl, digitChar_isDigit d hlt⟩

theorem hexVal_hexDigit (n : Nat) (h : n < 16) : hexVal (hexDigit n) = n := by
  interval_cases n <;> rfl

theorem pStrGo_quote (f : Nat) (X : List Char) :
    pStrGo (f + 1) ('"' :: X) = some ([], X) := rfl

theorem pStrGo_q (f : Nat) (X : List Char) :
    pStrGo (f + 1) ('\\' :: '"' :: X) =
      (pStrGo f X).map (fun p => ('"' :: p.1, p.2)) := rfl

theorem pStrGo_bs (f : Nat) (X : List Char) :
    pStrGo (f + 1) ('\\' :: '\\' :: X) =
      (pStrGo f X).map (fun p => ('\\' :: p.1, p.2)) := rfl

theorem pStrGo_nl (f : Nat) (X : List Char) :
    pStrGo (f + 1) ('\\' :: 'n' :: X) =
      (pStrGo f X).map (fun p => ('\n' :: p.1, p.2)) := rfl

theorem pStrGo_tab (f : Nat) (X : List Char) :
    pStrGo (f + 1) ('\\' :: 't' :: X) =
      (pStrGo f X).map (fun p => ('\t' :: p.1, p.2)) := rfl

theorem pStrGo_cr (f : Nat) (X : List Char) :
    pStrGo (f + 1) ('\\' :: 'r' :: X) =
      (pStrGo f X).map (fun p => ('\r' :: p.1, p.2)) := rfl

theorem pStrGo_bsp (f : Nat) (X : List Char) :
    pStrGo (f + 1) ('\\' :: 'b' :: X) =
      (pStrGo f X).map (fun p => (Char.ofNat 8 :: p.1, p.2)) := rfl

theorem pStrGo_ff (f : Nat) (X : List Char) :
    pStrGo (f + 1) ('\\' :: 'f' :: X) =
      (pStrGo f X).map (fun p => (Char.ofNat 12 :: p.1, p.2)) := rfl

theorem pStrGo_u (f : Nat) (a b c2 d : Char) (X : List Char) :
    pStrGo (f + 1) ('\\' :: 'u' :: a :: b :: c2 :: d :: X) =
      (pStrGo f X).map (fun p =>
        (Char.ofNat
            (hexVal a * 4096 + hexVal b * 256 + hexVal c2 * 16 + hexVal d) ::
          p.1, p.2)) := rfl

theorem pStrGo_plain (f : Nat) (c : Char) (X : List Char) (h1 : ¬c = '"')
    (h2 : ¬c = '\\') :
    pStrGo (f + 1) (c :: X) = (pStrGo f X).map (fun p => (c :: p.1, p.2)) := by
  simp only [pStrGo, if_neg h1, if_neg h2]

theorem pStrGo_enc (cs : List Char) : ∀ (fuel : Nat) (rest : List Char),
    cs.length < fuel →
    pStrGo fuel ((cs.map escChar).flatten ++ '"' :: rest) = some (cs, rest) := by
  induction cs with
  | nil =>
    intro fuel rest hf
    match fuel, hf with
    | f + 1, _ => exact pStrGo_quote f rest
  | cons c cs2 ih =>
    intro fuel rest hf
    obtain ⟨f, rfl⟩ : ∃ f, fuel = f + 1 := ⟨fuel - 1, by omega⟩
    have hlen : cs2.length < f := by
      simp only [List.length_cons] at hf
      omega
    simp only [List.map_cons, List.flatten_cons, List.append_assoc]
    set M : List Char := (List.map escChar cs2).flatten with hM
    by_cases h1 : c = '"'
    · subst h1
      rw [show escChar '"' = ['\\', '"'] from rfl]
      simp only [List.cons_append, List.nil_append]
      rw [pStrGo_q, ih f rest hlen]
      rfl
    by_cases h2 : c = '\\'
    · subst h2
      rw [show escChar '\\' = ['\\', '\\'] from rfl]
      simp only [List.cons_append, List.nil_append]
      rw [pStrGo_bs, ih f rest hlen]
      rfl
    by_cases h3 : c = '\n'
    · subst h3
      rw [show escChar '\n' = ['\\', 'n'] from rfl]
      simp only [List.cons_append, List.nil_append]
      rw [pStrGo_nl, ih f rest hlen]
      rfl
    by_cases h4 : c = '\t'
    · subst h4
      rw [show escChar '\t' = ['\\', 't'] from rfl]
      simp only [List.cons_append, List.nil_append]
      rw [pStrGo_tab, ih f rest hlen]
      rfl
    by_cases h5 : c = '\r'
    · subst h5
      rw [show escChar '\r' = ['\\', 'r'] from rfl]
      simp only [List.cons_append, List.nil_append]
      rw [pStrGo_cr, ih f rest hlen]
      rfl
    by_cases h6 : c.toNat = 8
    · have hc : c = Char.ofNat 8 := by rw [← h6, Char.ofNat_toNat]
      rw [show escChar c = ['\\', 'b'] from by
        unfold escChar
        rw [if_neg h1, if_neg h2, if_neg h3, if_neg h4, if_neg h5, if_pos h6]]
      simp only [List.cons_append, List.nil_append]
      rw [pStrGo_bsp, ih f rest hlen, ← hc]
      rfl
    by_cases h7 : c.toNat = 12
    · have hc : c = Char.ofNat 12 := by rw [← h7, Char.ofNat_toNat]
      rw [show escChar c = ['\\', 'f'] from by
        unfold escChar
        rw [if_neg h1, if_neg h2, if_neg h3, if_neg h4, if_neg h5, if_neg h6,
          if_pos h7]]
      simp only [List.cons_append, List.nil_append]
      rw [pStrGo_ff, ih f rest hlen, ← hc]
      rfl
    by_cases h8 : c.toNat < 32
    · rw [show escChar c =
          ['\\', 'u', '0', '0', hexDigit (c.toNat / 16), hexDigit (c.toNat % 16)]
        from by
        unfold escChar
        rw [if_neg h1, if_neg h2, if_neg h3, if_neg h4, if_neg h5, if_neg h6,
          if_neg h7, if_pos h8]]
      simp only [List.cons_append, List.nil_append]
      rw [pStrGo_u, ih f rest hlen]
      have hdiv : c.toNat / 16 < 16 := by omega
      have hmod : c.toNat % 16 < 16 := Nat.mod_lt _ (by omega)
      rw [show hexVal '0' = 0 from rfl, hexVal_hexDigit _ hdiv,
        hexVal_hexDigit _ hmod,
        show 0 * 4096 + 0 * 256 + c.toNat / 16 * 16 + c.toNat % 16 = c.toNat from by
          have := Nat.div_add_mod c.toNat 16
          omega,
        Char.ofNat_toNat]
      rfl
    · rw [show escChar c = [c] from by
        unfold escChar
        rw [if_neg h1, if_neg h2, if_neg h3, if_neg h4, if_neg h5, if_neg h6,
          if_neg h7, if_neg h8]]
      simp only [List.cons_append, List.nil_append]
      rw [pStrGo_plain f c _ h1 h2, ih f rest hlen]
      rfl

theorem escChar_len_pos (c : Char) : 1 ≤ (escChar c).length := by
  unfold escChar
  split_ifs <;> simp

theorem len_le_flatten_escChar (cs : List Char) :
    cs.length ≤ ((cs.map escChar).flatten).length := by
  induction cs with
  | nil => simp
  | cons c t ih =>
    simp only [List.map_cons, List.flatten_cons, List.length_cons,
      List.length_append]
    have := escChar_len_pos c
    omega

theorem pStr_enc (cs rest : List Char) :
    pStr ((cs.map escChar).flatten ++ '"' :: rest) = some (cs, rest) := by
  unfold pStr
  apply pStrGo_enc
  have h1 := len_le_flatten_escChar cs
  simp only [List.length_append, List.length_cons]
  omega

theorem sizeJ_pos (v : JVal) : 1 ≤ sizeJ v := by
  cases v <;> simp [sizeJ] <;> omega

theorem enc_head (mode : Option Nat) (ind : Nat) (v : JVal) (hv : wfJ v = true) :
    ∃ c cs, encVal mode ind v = c :: cs ∧ isJWsCh c = false ∧ ¬(c = ']') ∧
      ¬(c = rbrace) := by
  cases v with
  | s sv => exact ⟨'"', _, rfl, by decide, by decide, by decide⟩
  | i iv =>
    cases iv with
    | ofNat n =>
      obtain ⟨d, t, hd, hdig⟩ := decRepr_head n
      refine ⟨d, t, ?_, ws_false_of_digit d hdig,
        ne_of_digit d ']' hdig (by decide), ne_of_digit d rbrace hdig (by decide)⟩
      show encInt (Int.ofNat n) = d :: t
      unfold encInt
      exact hd
    | negSucc m =>
      exact ⟨'-', _, rfl, by decide, by decide, by decide⟩
  | b bv => cases bv with
    | true => refine ⟨'t', _, rfl, ?_, ?_, ?_⟩ <;> decide
    | false => refine ⟨'f', _, rfl, ?_, ?_, ?_⟩ <;> decide
  | arr a => cases a <;> exact ⟨'[', _, rfl, by decide, by decide, by decide⟩
  | obj o => cases o <;> exact ⟨lbrace, _, rfl, by decide, by decide, by decide⟩
  | anil => simp [wfJ, wfGo] at hv
  | acons h t => simp [wfJ, wfGo] at hv
  | onil => simp [wfJ, wfGo] at hv
  | ocons k v2 t => simp [wfJ, wfGo] at hv

theorem arrRest_noDigit (mode : Option Nat) (ind : Nat) (t : JVal)
    (ht : wfA t = true) (rest : List Char) :
    noDigitHead (encVal mode ind t ++ (closeSep mode ind ++ ']' :: rest)) =
      true := by
  cases t with
  | anil => cases mode <;> rfl
  | acons h t2 => cases mode <;> rfl
  | s sv => simp [wfA, wfGo] at ht
  | i iv => simp [wfA, wfGo] at ht
  | b bv => simp [wfA, wfGo] at ht
  | arr a => simp [wfA, wfGo] at ht
  | obj o => simp [wfA, wfGo] at ht
  | onil => simp [wfA, wfGo] at ht
  | ocons k v2 t2 => simp [wfA, wfGo] at ht

theorem objRest_noDigit (mode : Option Nat) (ind : Nat) (t : JVal)
    (ht : wfO t = true) (rest : List Char) :
    noDigitHead (encVal mode ind t ++ (closeSep mode ind ++ rbrace :: rest)) =
      true := by
  cases t with
  | onil => cases mode <;> rfl
  | ocons k v2 t2 => cases mode <;> rfl
  | s sv => simp [wfO, wfGo] at ht
  | i iv => simp [wfO, wfGo] at ht
  | b bv => simp [wfO, wfGo] at ht
  | arr a => simp [wfO, wfGo] at ht
  | obj o => simp [wfO, wfGo] at ht
  | anil => simp [wfO, wfGo] at ht
  | acons h t2 => simp [wfO, wfGo] at ht

theorem pVal_cons (f : Nat) (c : Char) (X : List Char)
    (hws : isJWsCh c = false) :
    pVal (f + 1) (c :: X) =
      (if c = lbrace then pObjBody f X
       else if c = '[' then pArrBody f X
       else if c = '"' then
         (pStr X).map (fun p => (JVal.s (String.mk p.1), p.2))
       else if c = 't' then
         match X with
         | 'r' :: 'u' :: 'e' :: r2 => some (JVal.b true, r2)
         | _ => none
       else if c = 'f' then
         match X with
         | 'a' :: 'l' :: 's' :: 'e' :: r2 => some (JVal.b false, r2)
         | _ => none
       else if c = '-' then
         match X with
         | d :: _ =>
           if isDigitCh d then
             some (JVal.i (-((pNatGo 0 X).1 : Int)), (pNatGo 0 X).2)
           else none
         | [] => none
       else if isDigitCh c then
         some (JVal.i ((pNatGo 0 (c :: X)).1 : Int), (pNatGo 0 (c :: X)).2)
       else none) := by
  simp only [pVal]
  rw [skipWs_cons_not_ws c X hws]

theorem pArrBody_cons (f : Nat) (c : Char) (X : List Char)
    (hws : isJWsCh c = false) :
    pArrBody (f + 1) (c :: X) =
      (if c = ']' then some (JVal.arr .anil, X)
       else
         match pVal f (c :: X) with
         | some (v, r2) =>
           (pArrRest f r2).map (fun p => (JVal.arr (JVal.acons v p.1), p.2))
         | none => none) := by
  simp only [pArrBody]
  rw [skipWs_cons_not_ws c X hws]

theorem pObjBody_cons (f : Nat) (c : Char) (X : List Char)
    (hws : isJWsCh c = false) :
    pObjBody (f + 1) (c :: X) =
      (if c = rbrace then some (JVal.obj .onil, X)
       else
         match pField f (c :: X) with
         | some (k, v, r2) =>
           (pObjRest f r2).map (fun p => (JVal.obj (JVal.ocons k v p.1), p.2))
         | none => none) := by
  simp only [pObjBody]
  rw [skipWs_cons_not_ws c X hws]

theorem pArrRest_cons (f : Nat) (c : Char) (X : List Char)
    (hws : isJWsCh c = false) :
    pArrRest (f + 1) (c :: X) =
      (if c = ']' then some (JVal.anil, X)
       else if c = ',' then
         match pVal f X with
         | some (v, r2) =>
           (pArrRest f r2).map (fun p => (JVal.acons v p.1, p.2))
         | none => none
       else none) := by
  simp only [pArrRest]
  rw [skipWs_cons_not_ws c X hws]

theorem pObjRest_cons (f : Nat) (c : Char) (X : List Char)
    (hws : isJWsCh c = false) :
    pObjRest (f + 1) (c :: X) =
      (if c = rbrace then some (JVal.onil, X)
       else if c = ',' then
         match pField f X with
         | some (k, v, r2) =>
           (pObjRest f r2).map (fun p => (JVal.ocons k v p.1, p.2))
         | none => none
       else none) := by
  simp only [pObjRest]
  rw [skipWs_cons_not_ws c X hws]

theorem pField_quote (f : Nat) (X : List Char) :
    pField (f + 1) ('"' :: X) =
      (match pStr X with
       | some (k, r2) =>
         match skipWs r2 with
         | ':' :: r3 =>
           match pVal f r3 with
           | some (v, r4) => some (String.mk k, v, r4)
           | none => none
         | _ => none
       | none => none) := rfl

theorem pVal_true_lit (f : Nat) (rest : List Char) :
    pVal (f + 1) ('t' :: 'r' :: 'u' :: 'e' :: rest) = some (JVal.b true, rest) := by
  rw [pVal_cons f 't' _ (by decide), if_neg (by decide), if_neg (by decide),
    if_neg (by decide), if_pos rfl]
  rfl

theorem pVal_false_lit (f : Nat) (rest : List Char) :
    pVal (f + 1) ('f' :: 'a' :: 'l' :: 's' :: 'e' :: rest) =
      some (JVal.b false, rest) := by
  rw [pVal_cons f 'f' _ (by decide), if_neg (by decide), if_neg (by decide),
    if_neg (by decide), if_neg (by decide), if_pos rfl]
  rfl

theorem pVal_minus (f : Nat) (d : Char) (Y : List Char)
    (hd : isDigitCh d = true) :
    pVal (f + 1) ('-' :: d :: Y) =
      some (JVal.i (-((pNatGo 0 (d :: Y)).1 : Int)), (pNatGo 0 (d :: Y)).2) := by
  rw [pVal_cons f '-' _ (by decide), if_neg (by decide), if_neg (by decide),
    if_neg (by decide), if_neg (by decide), if_neg (by decide), if_pos rfl]
  simp [hd]

theorem pVal_num (f : Nat) (c : Char) (X : List Char) (h : isDigitCh c = true) :
    pVal (f + 1) (c :: X) =
      some (JVal.i ((pNatGo 0 (c :: X)).1 : Int), (pNatGo 0 (c :: X)).2) := by
  rw [pVal_cons f c X (ws_false_of_digit c h),
    if_neg (ne_of_digit c lbrace h (by decide)),
    if_neg (ne_of_digit c '[' h (by decide)),
    if_neg (ne_of_digit c '"' h (by decide)),
    if_neg (ne_of_digit c 't' h (by decide)),
    if_neg (ne_of_digit c 'f' h (by decide)),
    if_neg (ne_of_digit c '-' h (by decide)), if_pos h]

theorem pField_enc (k : String) (v : JVal) (mode : Option Nat) (ind f3 : Nat)
    (REST : List Char)
    (hv : pVal f3 (encVal mode ind v ++ REST) = some (v, REST)) :
    pField (f3 + 1) (encStr k ++ ':' :: ' ' :: (encVal mode ind v ++ REST)) =
      some (k, v, REST) := by
  have e2 : encStr k ++ ':' :: ' ' :: (encVal mode ind v ++ REST) =
      '"' :: ((k.data.map escChar).flatten ++
        '"' :: (':' :: ' ' :: (encVal mode ind v ++ REST))) := by
    unfold encStr
    simp [List.append_assoc]
  rw [e2, pField_quote f3]
  have hsk : skipWs (':' :: ' ' :: (encVal mode ind v ++ REST)) =
      ':' :: ' ' :: (encVal mode ind v ++ REST) :=
    skipWs_cons_not_ws _ _ (by decide)
  have hv2 : pVal f3 (' ' :: (encVal mode ind v ++ REST)) = some (v, REST) := by
    rw [pVal_congr f3 (' ' :: (encVal mode ind v ++ REST))
      (encVal mode ind v ++ REST)
      (by
        show skipWs ([' '] ++ (encVal mode ind v ++ REST)) = _
        rw [skipWs_append_allWs [' '] _ (by decide)])]
    exact hv
  simp only [pStr_enc, hsk, hv2]

theorem enc_parse : ∀ (N : Nat) (v : JVal), sizeJ v ≤ N →
    ∀ (mode : Option Nat) (ind fuel : Nat) (rest : List Char),
    (wfJ v = true → sizeJ v ≤ fuel → noDigitHead rest = true →
      pVal fuel (encVal mode ind v ++ rest) = some (v, rest)) ∧
    (wfA v = true → sizeJ v ≤ fuel → noDigitHead rest = true →
      pArrRest fuel (encVal mode ind v ++ (closeSep mode ind ++ ']' :: rest)) =
        some (v, rest)) ∧
    (wfO v = true → sizeJ v ≤ fuel → noDigitHead rest = true →
      pObjRest fuel
          (encVal mode ind v ++ (closeSep mode ind ++ rbrace :: rest)) =
        some (v, rest)) := by
  intro N
  induction N with
  | zero =>
    intro v hv
    have := sizeJ_pos v
    omega
  | succ N ihN =>
    intro v hN mode ind fuel rest
    cases v with
    | s sv =>
      refine ⟨fun _ hsz hnd => ?_, fun hA _ _ => by simp [wfA, wfGo] at hA,
        fun hO _ _ => by simp [wfO, wfGo] at hO⟩
      obtain ⟨f, rfl⟩ : ∃ f, fuel = f + 1 := ⟨fuel - 1, by
        have := sizeJ_pos (JVal.s sv)
        omega⟩
      have e1 : encVal mode ind (JVal.s sv) ++ rest =
          '"' :: ((sv.data.map escChar).flatten ++ '"' :: rest) := by
        show encStr sv ++ rest = _
        unfold encStr
        simp [List.append_assoc]
      rw [e1, pVal_cons f '"' _ (by decide), if_neg (by decide),
        if_neg (by decide), if_pos rfl]
      simp only [pStr_enc]
      rfl
    | i iv =>
      refine ⟨fun _ hsz hnd => ?_, fun hA _ _ => by simp [wfA, wfGo] at hA,
        fun hO _ _ => by simp [wfO, wfGo] at hO⟩
      obtain ⟨f, rfl⟩ : ∃ f, fuel = f + 1 := ⟨fuel - 1, by
        have := sizeJ_pos (JVal.i iv)
        omega⟩
      cases iv with
      | ofNat n =>
        obtain ⟨d, t, hd, hdig⟩ := decRepr_head n
        have e1 : encVal mode ind (JVal.i (Int.ofNat n)) ++ rest =
            d :: (t ++ rest) := by
          show decRepr n ++ rest = _
          rw [hd]
          simp
        have hp : pNatGo 0 (d :: (t ++ rest)) = (n, rest) := by
          rw [show d :: (t ++ rest) = decRepr n ++ rest from by rw [hd]; simp]
          exact decRepr_parse n rest hnd
        rw [e1, pVal_num f d _ hdig, hp]
        rfl
      | negSucc m =>
        obtain ⟨d, t, hd, hdig⟩ := decRepr_head (m + 1)
        have e1 : encVal mode ind (JVal.i (Int.negSucc m)) ++ rest =
            '-' :: (d :: (t ++ rest)) := by
          show ('-' :: decRepr (m + 1)) ++ rest = _
          rw [hd]
          simp
        have hp : pNatGo 0 (d :: (t ++ rest)) = (m + 1, rest) := by
          rw [show d :: (t ++ rest) = decRepr (m + 1) ++ rest from by
            rw [hd]; simp]
          exact decRepr_parse (m + 1) rest hnd
        rw [e1, pVal_minus f d _ hdig, hp]
        have hneg : -(((m + 1 : Nat) : Int)) = Int.negSucc m := by
          rw [Int.negSucc_eq]
          push_cast
          ring
        show some (JVal.i (-((m + 1 : Nat) : Int)), rest) = _
        rw [hneg]
    | b bv =>
      refine ⟨fun _ hsz hnd => ?_, fun hA _ _ => by simp [wfA, wfGo] at hA,
        fun hO _ _ => by simp [wfO, wfGo] at hO⟩
      obtain ⟨f, rfl⟩ : ∃ f, fuel = f + 1 := ⟨fuel - 1, by
        have := sizeJ_pos (JVal.b bv)
        omega⟩
      cases bv with
      | true => exact pVal_true_lit f rest
      | false => exact pVal_false_lit f rest
    | arr a =>
      refine ⟨fun hJ hsz hnd => ?_, fun hA _ _ => by simp [wfA, wfGo] at hA,
        fun hO _ _ => by simp [wfO, wfGo] at hO⟩
      obtain ⟨F, rfl⟩ : ∃ F, fuel = F + 1 := ⟨fuel - 1, by
        have := sizeJ_pos (JVal.arr a)
        omega⟩
      cases a with
      | anil =>
        obtain ⟨f2, rfl⟩ : ∃ f2, F = f2 + 1 := ⟨F - 1, by
          simp only [sizeJ] at hsz
          omega⟩
        have e1 : encVal mode ind (JVal.arr JVal.anil) ++ rest =
            '[' :: ']' :: rest := by
          simp [encVal]
        rw [e1, pVal_cons (f2 + 1) '[' _ (by decide), if_neg (by decide),
          if_pos rfl, pArrBody_cons f2 ']' rest (by decide), if_pos rfl]
      | acons h t =>
        have hwf : wfJ h = true ∧ wfA t = true := by
          have := hJ
          simp only [wfJ, wfA, wfGo, Bool.and_eq_true] at this ⊢
          exact this
        have hszp := sizeJ_pos h
        have hszq := sizeJ_pos t
        have hsz2 : 2 + sizeJ h + sizeJ t ≤ F + 1 := by
          simp only [sizeJ] at hsz
          omega
        obtain ⟨f2, rfl⟩ : ∃ f2, F = f2 + 1 := ⟨F - 1, by omega⟩
        have hNh : sizeJ h ≤ N := by
          simp only [sizeJ] at hN
          omega
        have hNt : sizeJ t ≤ N := by
          simp only [sizeJ] at hN
          omega
        have e1 : encVal mode ind (JVal.arr (JVal.acons h t)) ++ rest =
            '[' :: (openSep mode ind ++
              (encVal mode (ind + indentStep mode) h ++
                (encVal mode ind t ++ (closeSep mode ind ++ ']' :: rest)))) := by
          simp [encVal, List.append_assoc]
        rw [e1, pVal_cons (f2 + 1) '[' _ (by decide), if_neg (by decide),
          if_pos rfl]
        rw [pArrBody_congr (f2 + 1) _ _ (skipWs_append_allWs _ _
          (openSep_allWs mode ind))]
        obtain ⟨c0, cs0, hch, hcw, hcnb, _⟩ :=
          enc_head mode (ind + indentStep mode) h hwf.1
        have e2 : encVal mode (ind + indentStep mode) h ++
            (encVal mode ind t ++ (closeSep mode ind ++ ']' :: rest)) =
            c0 :: (cs0 ++
              (encVal mode ind t ++ (closeSep mode ind ++ ']' :: rest))) := by
          rw [hch]
          simp
        rw [show (f2 + 1 : Nat) = (f2 + 1) from rfl, e2,
          pArrBody_cons f2 c0 _ hcw, if_neg hcnb]
        have hv : pVal f2 (c0 :: (cs0 ++
            (encVal mode ind t ++ (closeSep mode ind ++ ']' :: rest)))) =
            some (h, encVal mode ind t ++ (closeSep mode ind ++ ']' :: rest)) := by
          rw [← e2]
          exact (ihN h hNh mode (ind + indentStep mode) f2 _).1 hwf.1
            (by omega) (arrRest_noDigit mode ind t hwf.2 rest)
        have ht2 : pArrRest f2
            (encVal mode ind t ++ (closeSep mode ind ++ ']' :: rest)) =
            some (t, rest) :=
          (ihN t hNt mode ind f2 rest).2.1 hwf.2 (by omega) hnd
        simp only [hv, ht2]
        rfl
      | s sv => simp [wfJ, wfGo] at hJ
      | i iv => simp [wfJ, wfGo] at hJ
      | b bv => simp [wfJ, wfGo] at hJ
      | arr a2 => simp [wfJ, wfGo] at hJ
      | obj o2 => simp [wfJ, wfGo] at hJ
      | onil => simp [wfJ, wfGo] at hJ
      | ocons k2 v2 t2 => simp [wfJ, wfGo] at hJ
    | obj o =>
      refine ⟨fun hJ hsz hnd => ?_, fun hA _ _ => by simp [wfA, wfGo] at hA,
        fun hO _ _ => by simp [wfO, wfGo] at hO⟩
      obtain ⟨F, rfl⟩ : ∃ F, fuel = F + 1 := ⟨fuel - 1, by
        have := sizeJ_pos (JVal.obj o)
        omega⟩
      cases o with
      | onil =>
        obtain ⟨f2, rfl⟩ : ∃ f2, F = f2 + 1 := ⟨F - 1, by
          simp only [sizeJ] at hsz
          omega⟩
        have e1 : encVal mode ind (JVal.obj JVal.onil) ++ rest =
            lbrace :: rbrace :: rest := by
          simp [encVal]
        rw [e1, pVal_cons (f2 + 1) lbrace _ (by decide), if_pos rfl,
          pObjBody_cons f2 rbrace rest (by decide), if_pos rfl]
      | ocons k v2 t =>
        have hwf : wfJ v2 = true ∧ wfO t = true := by
          have := hJ
          simp only [wfJ, wfO, wfGo, Bool.and_eq_true] at this ⊢
          exact ⟨this.1.2, this.2⟩
        have hszp := sizeJ_pos v2
        have hszq := sizeJ_pos t
        have hsz2 : 2 + sizeJ v2 + sizeJ t ≤ F + 1 := by
          simp only [sizeJ] at hsz
          omega
        obtain ⟨f2, rfl⟩ : ∃ f2, F = f2 + 1 := ⟨F - 1, by omega⟩
        obtain ⟨f3, rfl⟩ : ∃ f3, f2 = f3 + 1 := ⟨f2 - 1, by omega⟩
        have hNv : sizeJ v2 ≤ N := by
          simp only [sizeJ] at hN
          omega
        have hNt : sizeJ t ≤ N := by
          simp only [sizeJ] at hN
          omega
        have e1 : encVal mode ind (JVal.obj (JVal.ocons k v2 t)) ++ rest =
            lbrace :: (openSep mode ind ++
              (encStr k ++ ':' :: ' ' ::
                (encVal mode (ind + indentStep mode) v2 ++
                  (encVal mode ind t ++
                    (closeSep mode ind ++ rbrace :: rest))))) := by
          simp [encVal, List.append_assoc]
        rw [e1, pVal_cons (f3 + 1 + 1) lbrace _ (by decide), if_pos rfl]
        rw [pObjBody_congr (f3 + 1 + 1) _ _ (skipWs_append_allWs _ _
          (openSep_allWs mode ind))]
        have hvsub : pVal f3 (encVal mode (ind + indentStep mode) v2 ++
            (encVal mode ind t ++ (closeSep mode ind ++ rbrace :: rest))) =
            some (v2, encVal mode ind t ++
              (closeSep mode ind ++ rbrace :: rest)) :=
          (ihN v2 hNv mode (ind + indentStep mode) f3 _).1 hwf.1 (by omega)
            (objRest_noDigit mode ind t hwf.2 rest)
        have hfld := pField_enc k v2 mode (ind + indentStep mode) f3
          (encVal mode ind t ++ (closeSep mode ind ++ rbrace :: rest)) hvsub
        have e2 : encStr k ++ ':' :: ' ' ::
            (encVal mode (ind + indentStep mode) v2 ++
              (encVal mode ind t ++ (closeSep mode ind ++ rbrace :: rest))) =
            '"' :: ((k.data.map escChar).flatten ++
              '"' :: (':' :: ' ' ::
                (encVal mode (ind + indentStep mode) v2 ++
                  (encVal mode ind t ++
                    (closeSep mode ind ++ rbrace :: rest))))) := by
          unfold encStr
          simp [List.append_assoc]
        rw [e2, pObjBody_cons (f3 + 1) '"' _ (by decide), if_neg (by decide)]
        rw [← e2]
        have ht2 : pObjRest (f3 + 1)
            (encVal mode ind t ++ (closeSep mode ind ++ rbrace :: rest)) =
            some (t, rest) :=
          (ihN t hNt mode ind (f3 + 1) rest).2.2 hwf.2 (by omega) hnd
        simp only [hfld, ht2]
        rfl
      | s sv => simp [wfJ, wfGo] at hJ
      | i iv => simp [wfJ, wfGo] at hJ
      | b bv => simp [wfJ, wfGo] at hJ
      | arr a2 => simp [wfJ, wfGo] at hJ
      | obj o2 => simp [wfJ, wfGo] at hJ
      | anil => simp [wfJ, wfGo] at hJ
      | acons h2 t2 => simp [wfJ, wfGo] at hJ
    | anil =>
      refine ⟨fun hJ _ _ => by simp [wfJ, wfGo] at hJ, fun _ hsz hnd => ?_,
        fun hO _ _ => by simp [wfO, wfGo] at hO⟩
      obtain ⟨F, rfl⟩ : ∃ F, fuel = F + 1 := ⟨fuel - 1, by
        have := sizeJ_pos JVal.anil
        omega⟩
      have e1 : encVal mode ind JVal.anil ++ (closeSep mode ind ++ ']' :: rest) =
          closeSep mode ind ++ ']' :: rest := by
        simp [encVal]
      rw [e1, pArrRest_congr (F + 1) _ _ (skipWs_append_allWs _ _
        (closeSep_allWs mode ind)), pArrRest_cons F ']' rest (by decide),
        if_pos rfl]
    | onil =>
      refine ⟨fun hJ _ _ => by simp [wfJ, wfGo] at hJ,
        fun hA _ _ => by simp [wfA, wfGo] at hA, fun _ hsz hnd => ?_⟩
      obtain ⟨F, rfl⟩ : ∃ F, fuel = F + 1 := ⟨fuel - 1, by
        have := sizeJ_pos JVal.onil
        omega⟩
      have e1 : encVal mode ind JVal.onil ++
          (closeSep mode ind ++ rbrace :: rest) =
          closeSep mode ind ++ rbrace :: rest := by
        simp [encVal]
      rw [e1, pObjRest_congr (F + 1) _ _ (skipWs_append_allWs _ _
        (closeSep_allWs mode ind)), pObjRest_cons F rbrace rest (by decide),
        if_pos rfl]
    | acons h t =>
      refine ⟨fun hJ _ _ => by simp [wfJ, wfGo] at hJ, fun hA hsz hnd => ?_,
        fun hO _ _ => by simp [wfO, wfGo] at hO⟩
      have hwf : wfJ h = true ∧ wfA t = true := by
        have := hA
        simp only [wfJ, wfA, wfGo, Bool.and_eq_true] at this ⊢
        exact this
      have hszp := sizeJ_pos h
      have hszq := sizeJ_pos t
      have hsz2 : 1 + sizeJ h + sizeJ t ≤ fuel := by
        simp only [sizeJ] at hsz
        omega
      obtain ⟨F, rfl⟩ : ∃ F, fuel = F + 1 := ⟨fuel - 1, by omega⟩
      have hNh : sizeJ h ≤ N := by
        simp only [sizeJ] at hN
        omega
      have hNt : sizeJ t ≤ N := by
        simp only [sizeJ] at hN
        omega
      obtain ⟨ws, hwseq, hwsall⟩ := itemSep_eq mode ind
      have e1 : encVal mode ind (JVal.acons h t) ++
          (closeSep mode ind ++ ']' :: rest) =
          ',' :: (ws ++ (encVal mode (ind + indentStep mode) h ++
            (encVal mode ind t ++ (closeSep mode ind ++ ']' :: rest)))) := by
        have e0 : encVal mode ind (JVal.acons h t) =
            itemSep mode ind ++ encVal mode (ind + indentStep mode) h ++
              encVal mode ind t := rfl
        rw [e0, hwseq]
        simp [List.append_assoc]
      rw [e1, pArrRest_cons F ',' _ (by decide), if_neg (by decide),
        if_pos rfl]
      have hv : pVal F (ws ++ (encVal mode (ind + indentStep mode) h ++
          (encVal mode ind t ++ (closeSep mode ind ++ ']' :: rest)))) =
          some (h, encVal mode ind t ++ (closeSep mode ind ++ ']' :: rest)) := by
        rw [pVal_congr F _ _ (skipWs_append_allWs ws _ hwsall)]
        exact (ihN h hNh mode (ind + indentStep mode) F _).1 hwf.1 (by omega)
          (arrRest_noDigit mode ind t hwf.2 rest)
      have ht2 : pArrRest F
          (encVal mode ind t ++ (closeSep mode ind ++ ']' :: rest)) =
          some (t, rest) :=
        (ihN t hNt mode ind F rest).2.1 hwf.2 (by omega) hnd
      simp only [hv, ht2]
      rfl
    | ocons k v2 t =>
      refine ⟨fun hJ _ _ => by simp [wfJ, wfGo] at hJ,
        fun hA _ _ => by simp [wfA, wfGo] at hA, fun hO hsz hnd => ?_⟩
      have hwf : wfJ v2 = true ∧ wfO t = true := by
        have := hO
        simp only [wfJ, wfO, wfGo, Bool.and_eq_true] at this ⊢
        exact ⟨this.1.2, this.2⟩
      have hszp := sizeJ_pos v2
      have hszq := sizeJ_pos t
      have hsz2 : 1 + sizeJ v2 + sizeJ t ≤ fuel := by
        simp only [sizeJ] at hsz
        omega
      obtain ⟨F, rfl⟩ : ∃ F, fuel = F + 1 := ⟨fuel - 1, by omega⟩
      obtain ⟨f3, rfl⟩ : ∃ f3, F = f3 + 1 := ⟨F - 1, by omega⟩
      have hNv : sizeJ v2 ≤ N := by
        simp only [sizeJ] at hN
        omega
      have hNt : sizeJ t ≤ N := by
        simp only [sizeJ] at hN
        omega
      obtain ⟨ws, hwseq, hwsall⟩ := itemSep_eq mode ind
      have e1 : encVal mode ind (JVal.ocons k v2 t) ++
          (closeSep mode ind ++ rbrace :: rest) =
          ',' :: (ws ++ (encStr k ++ ':' :: ' ' ::
            (encVal mode (ind + indentStep mode) v2 ++
              (encVal mode ind t ++
                (closeSep mode ind ++ rbrace :: rest))))) := by
        have e0 : encVal mode ind (JVal.ocons k v2 t) =
            itemSep mode ind ++
              (encStr k ++ ':' :: ' ' ::
                encVal mode (ind + indentStep mode) v2) ++
              encVal mode ind t := rfl
        rw [e0, hwseq]
        simp [List.append_assoc]
      rw [e1, pObjRest_cons (f3 + 1) ',' _ (by decide), if_neg (by decide),
        if_pos rfl]
      have hvsub : pVal f3 (encVal mode (ind + indentStep mode) v2 ++
          (encVal mode ind t ++ (closeSep mode ind ++ rbrace :: rest))) =
          some (v2, encVal mode ind t ++
            (closeSep mode ind ++ rbrace :: rest)) :=
        (ihN v2 hNv mode (ind + indentStep mode) f3 _).1 hwf.1 (by omega)
          (objRest_noDigit mode ind t hwf.2 rest)
      have hfld0 := pField_enc k v2 mode (ind + indentStep mode) f3
        (encVal mode ind t ++ (closeSep mode ind ++ rbrace :: rest)) hvsub
      have hfld : pField (f3 + 1) (ws ++ (encStr k ++ ':' :: ' ' ::
          (encVal mode (ind + indentStep mode) v2 ++
            (encVal mode ind t ++ (closeSep mode ind ++ rbrace :: rest))))) =
          some (k, v2,
            encVal mode ind t ++ (closeSep mode ind ++ rbrace :: rest)) := by
        rw [pField_congr (f3 + 1) _ _ (skipWs_append_allWs ws _ hwsall)]
        exact hfld0
      have ht2 : pObjRest (f3 + 1)
          (encVal mode ind t ++ (closeSep mode ind ++ rbrace :: rest)) =
          some (t, rest) :=
        (ihN t hNt mode ind (f3 + 1) rest).2.2 hwf.2 (by omega) hnd
      simp only [hfld, ht2]
      rfl

theorem itemSep_len (mode : Option Nat) (ind : Nat) :
    2 ≤ (itemSep mode ind).length := by
  cases mode <;> simp [itemSep, pad]

theorem sizeJ_le_enc : ∀ (N : Nat) (v : JVal), sizeJ v ≤ N →
    ∀ (mode : Option Nat) (ind : Nat),
    (wfJ v = true ∨ wfA v = true ∨ wfO v = true) →
    sizeJ v ≤ 2 * (encVal mode ind v).length + 1 := by
  intro N
  induction N with
  | zero =>
    intro v hv
    have := sizeJ_pos v
    omega
  | succ N ihN =>
    intro v hN mode ind hwf
    cases v with
    | s sv =>
      simp only [sizeJ]
      omega
    | i iv =>
      simp only [sizeJ]
      omega
    | b bv =>
      simp only [sizeJ]
      omega
    | anil =>
      simp only [sizeJ]
      omega
    | onil =>
      simp only [sizeJ]
      omega
    | arr a =>
      have hJ : wfA a = true := by
        rcases hwf with h | h | h
        · exact h
        · simp [wfA, wfGo] at h
        · simp [wfO, wfGo] at h
      cases a with
      | anil =>
        simp only [sizeJ, encVal]
        simp
      | acons h t =>
        have hw : wfJ h = true ∧ wfA t = true := by
          simp only [wfA, wfJ, wfGo, Bool.and_eq_true] at hJ ⊢
          exact hJ
        have hNh : sizeJ h ≤ N := by
          have := sizeJ_pos t
          simp only [sizeJ] at hN
          omega
        have hNt : sizeJ t ≤ N := by
          have := sizeJ_pos h
          simp only [sizeJ] at hN
          omega
        have ihh := ihN h hNh mode (ind + indentStep mode) (Or.inl hw.1)
        have iht := ihN t hNt mode ind (Or.inr (Or.inl hw.2))
        simp only [sizeJ, encVal, List.length_cons, List.length_append]
        omega
      | s sv => simp [wfA, wfGo] at hJ
      | i iv => simp [wfA, wfGo] at hJ
      | b bv => simp [wfA, wfGo] at hJ
      | arr a2 => simp [wfA, wfGo] at hJ
      | obj o2 => simp [wfA, wfGo] at hJ
      | onil => simp [wfA, wfGo] at hJ
      | ocons k2 v2 t2 => simp [wfA, wfGo] at hJ
    | obj o =>
      have hO : wfO o = true := by
        rcases hwf with h | h | h
        · exact h
        · simp [wfA, wfGo] at h
        · simp [wfO, wfGo] at h
      cases o with
      | onil =>
        simp only [sizeJ, encVal]
        simp
      | ocons k v2 t =>
        have hw : wfJ v2 = true ∧ wfO t = true := by
          simp only [wfO, wfJ, wfGo, Bool.and_eq_true] at hO ⊢
          exact ⟨hO.1.2, hO.2⟩
        have hNv : sizeJ v2 ≤ N := by
          have := sizeJ_pos t
          simp only [sizeJ] at hN
          omega
        have hNt : sizeJ t ≤ N := by
          have := sizeJ_pos v2
          simp only [sizeJ] at hN
          omega
        have ihv := ihN v2 hNv mode (ind + indentStep mode) (Or.inl hw.1)
        have iht := ihN t hNt mode ind (Or.inr (Or.inr hw.2))
        simp only [sizeJ, encVal, List.length_cons, List.length_append]
        omega
      | s sv => simp [wfO, wfGo] at hO
      | i iv => simp [wfO, wfGo] at hO
      | b bv => simp [wfO, wfGo] at hO
      | arr a2 => simp [wfO, wfGo] at hO
      | obj o2 => simp [wfO, wfGo] at hO
      | anil => simp [wfO, wfGo] at hO
      | acons h2 t2 => simp [wfO, wfGo] at hO
    | acons h t =>
      have hA : wfJ h = true ∧ wfA t = true := by
        rcases hwf with h1 | h1 | h1
        · simp [wfJ, wfGo] at h1
        · simp only [wfA, wfJ, wfGo, Bool.and_eq_true] at h1 ⊢
          exact h1
        · simp [wfO, wfGo] at h1
      have hNh : sizeJ h ≤ N := by
        have := sizeJ_pos t
        simp only [sizeJ] at hN
        omega
      have hNt : sizeJ t ≤ N := by
        have := sizeJ_pos h
        simp only [sizeJ] at hN
        omega
      have ihh := ihN h hNh mode (ind + indentStep mode) (Or.inl hA.1)
      have iht := ihN t hNt mode ind (Or.inr (Or.inl hA.2))
      have hsep := itemSep_len mode ind
      simp only [sizeJ, encVal, List.length_append]
      omega
    | ocons k v2 t =>
      have hA : wfJ v2 = true ∧ wfO t = true := by
        rcases hwf with h1 | h1 | h1
        · simp [wfJ, wfGo] at h1
        · simp [wfA, wfGo] at h1
        · simp only [wfO, wfJ, wfGo, Bool.and_eq_true] at h1 ⊢
          exact ⟨h1.1.2, h1.2⟩
      have hNv : sizeJ v2 ≤ N := by
        have := sizeJ_pos t
        simp only [sizeJ] at hN
        omega
      have hNt : sizeJ t ≤ N := by
        have := sizeJ_pos v2
        simp only [sizeJ] at hN
        omega
      have ihv := ihN v2 hNv mode (ind + indentStep mode) (Or.inl hA.1)
      have iht := ihN t hNt mode ind (Or.inr (Or.inr hA.2))
      simp only [sizeJ, encVal, List.length_append, List.length_cons]
      omega

theorem loadsCh_enc (mode : Option Nat) (d : JVal) (hd : wfO d = true) :
    loadsCh (encVal mode 0 (JVal.obj d)) = some (JVal.obj d) := by
  have hJ : wfJ (JVal.obj d) = true := hd
  have hb := sizeJ_le_enc (sizeJ (JVal.obj d)) (JVal.obj d) le_rfl mode 0
    (Or.inl hJ)
  have hp := (enc_parse (sizeJ (JVal.obj d)) (JVal.obj d) le_rfl mode 0
    (2 * (encVal mode 0 (JVal.obj d)).length + 2) []).1 hJ (by omega) rfl
  rw [List.append_nil] at hp
  unfold loadsCh
  rw [hp]
  rfl

theorem pyOrEmptyObj_id (d : JVal) : pyOrEmptyObj d = d := by
  cases d <;> rfl

theorem fsRead_write (fs : FSt) (p t : List Char) :
    fsRead (fsWrite fs p t) p = some t := by
  simp [fsRead, fsWrite]

theorem truthy_obj (d : JVal) :
    (if pyTruthy (JVal.obj d) then JVal.obj d else JVal.obj JVal.onil) =
      JVal.obj d := by
  cases d <;> rfl

theorem jsonDump_nonempty (d : JVal) : (jsonDump d).isEmpty = false := by
  cases d <;> rfl

/-- C7: config round-trip.  For every relative path that resolves inside
the config root with extension `.yaml`, `.yml` or `.json`, and every
structured document (a map, given by its association spine `content`, with
pairwise-distinct keys), `write_config` succeeds, stores the serialized
document, and a subsequent `read_config` of the same path returns a
structurally equal document. -/
theorem c7_config_roundtrip (base : List (List Char)) (fs : FSt)
    (rel : List Char) (content : JVal) (abs : List (List Char))
    (ext : List Char)
    (hres : resolve_path base rel = .ok (abs, ext))
    (hext : ext = ".yaml".data ∨ ext = ".yml".data ∨ ext = ".json".data)
    (hwf : wfO content = true) :
    ∃ fs2, write_config base fs rel content = .ok (fs2, content) ∧
      read_config base fs2 rel = .ok (JVal.obj content) := by
  rcases hext with he | he | he
  · subst he
    refine ⟨fsWrite fs (renderAbs abs) (yamlDump (pyOrEmptyObj content)),
      ?_, ?_⟩
    · simp only [write_config, hres]
      rw [if_pos (by simp)]
    · simp only [read_config, hres, fsRead_write, pyOrEmptyObj_id]
      rw [if_pos (by simp)]
      simp only [yamlDump, loadsCh_enc none content hwf]
      rw [truthy_obj]
  · subst he
    refine ⟨fsWrite fs (renderAbs abs) (yamlDump (pyOrEmptyObj content)),
      ?_, ?_⟩
    · simp only [write_config, hres]
      rw [if_pos (by simp)]
    · simp only [read_config, hres, fsRead_write, pyOrEmptyObj_id]
      rw [if_pos (by simp)]
      simp only [yamlDump, loadsCh_enc none content hwf]
      rw [truthy_obj]
  · subst he
    refine ⟨fsWrite fs (renderAbs abs) (jsonDump (pyOrEmptyObj content)),
      ?_, ?_⟩
    · simp only [write_config, hres]
      rw [if_neg (by decide), if_pos (by simp)]
    · simp only [read_config, hres, fsRead_write, pyOrEmptyObj_id]
      rw [if_neg (by decide), if_pos (by simp)]
      simp only [jsonDump_nonempty, Bool.false_eq_true, if_false]
      simp only [jsonDump, loadsCh_enc (some 2) content hwf]

/-- C7 witness: the document {"a": 1, "b": {"x": true}}
round-trips through a `.yaml` path and through a `.json` path under config
root `/cfg`. -/
theorem c7_config_roundtrip_witness :
    (∃ fs2, write_config [['c', 'f', 'g']] [] ("envs/sample.yaml".data)
        (JVal.ocons "a" (JVal.i 1)
          (JVal.ocons "b"
            (JVal.obj (JVal.ocons "x" (JVal.b true) JVal.onil))
            JVal.onil)) =
        .ok (fs2, JVal.ocons "a" (JVal.i 1)
          (JVal.ocons "b"
            (JVal.obj (JVal.ocons "x" (JVal.b true) JVal.onil))
            JVal.onil)) ∧
      read_config [['c', 'f', 'g']] fs2 ("envs/sample.yaml".data) =
        .ok (JVal.obj (JVal.ocons "a" (JVal.i 1)
          (JVal.ocons "b"
            (JVal.obj (JVal.ocons "x" (JVal.b true) JVal.onil))
            JVal.onil)))) ∧
    (∃ fs2, write_config [['c', 'f', 'g']] [] ("envs/sample.json".data)
        (JVal.ocons "a" (JVal.i 1)
          (JVal.ocons "b"
            (JVal.obj (JVal.ocons "x" (JVal.b true) JVal.onil))
            JVal.onil)) =
        .ok (fs2, JVal.ocons "a" (JVal.i 1)
          (JVal.ocons "b"
            (JVal.obj (JVal.ocons "x" (JVal.b true) JVal.onil))
            JVal.onil)) ∧
      read_config [['c', 'f', 'g']] fs2 ("envs/sample.json".data) =
        .ok (JVal.obj (JVal.ocons "a" (JVal.i 1)
          (JVal.ocons "b"
            (JVal.obj (JVal.ocons "x" (JVal.b true) JVal.onil))
            JVal.onil)))) :=
  ⟨c7_config_roundtrip [['c', 'f', 'g']] [] ("envs/sample.yaml".data)
      (JVal.ocons "a" (JVal.i 1)
        (JVal.ocons "b"
          (JVal.obj (JVal.ocons "x" (JVal.b true) JVal.onil))
          JVal.onil))
      [['c', 'f', 'g'], "envs".data, "sample.yaml".data] (".yaml".data)
      rfl (Or.inl rfl) (by decide),
   c7_config_roundtrip [['c', 'f', 'g']] [] ("envs/sample.json".data)
      (JVal.ocons "a" (JVal.i 1)
        (JVal.ocons "b"
          (JVal.obj (JVal.ocons "x" (JVal.b true) JVal.onil))
          JVal.onil))
      [['c', 'f', 'g'], "envs".data, "sample.json".data] (".json".data)
      rfl (Or.inr (Or.inr rfl)) (by decide)⟩

/-- C10 witness: start then stop while running sets the flag during the
epoch; the `stopped` finalization of that run indeed implies the
stop-during-epoch fact, and a launch clears the flag. -/
theorem c10_stopped_only_after_stop_in_epoch_witness :
    (runEvents (initSys 1) [.acquireCheck 0, .launch 0, .stopReq]).stopDuringTask
      = true ∧
    (sysStep (runEvents (initSys 1) [.acquireCheck 0]) (.launch 0)).stopFlag
      = false := by
  have h := c10_stopped_only_after_stop_in_epoch 1
    [.acquireCheck 0, .launch 0, .stopReq] 0 1 0
  have h2 := c10_stopped_only_after_stop_in_epoch 1 [.acquireCheck 0] 0 1 0
  exact ⟨h.1 (by decide), (h2.2.1 (by decide) (by decide)).1⟩

/-! ## C2 — terminal-state finalization (corrected) -/

/-- C2 counterexample: `finalize_test_run` is an unconditional overwrite,
so a repeated finalization does corrupt the previously recorded terminal
state: a run finalized as `passed` at time 5 and re-finalized as `failed`
at time 9 ends up with status `failed`, end time 9 and the new counts —
the prior terminal state is not preserved. -/
theorem c2_refinalize_overwrites_terminal_state :
    statusOf (finalize_test_run [⟨1, "running", 0, none, 0, 0, 0⟩]
      1 "passed" 1 0 5).2 1 = some "passed" ∧
    endTimeOf (finalize_test_run [⟨1, "running", 0, none, 0, 0, 0⟩]
      1 "passed" 1 0 5).2 1 = some (some 5) ∧
    statusOf (finalize_test_run (finalize_test_run [⟨1, "running", 0, none, 0, 0, 0⟩]
      1 "passed" 1 0 5).2 1 "failed" 0 5 9).2 1 = some "failed" ∧
    endTimeOf (finalize_test_run (finalize_test_run [⟨1, "running", 0, none, 0, 0, 0⟩]
      1 "passed" 1 0 5).2 1 "failed" 0 5 9).2 1 = some (some 9) := by
  refine ⟨rfl, rfl, rfl, rfl⟩

/-- C2 (amended): finalization sets a non-null end time and the given
status and counts, and the execution task issues exactly one finalization
per run, always with a terminal status in `{passed, failed, stopped,
error}`; but `finalize_test_run` itself is an unconditional overwrite, so a
repeated finalization **replaces** the previously recorded terminal status,
end time and counts with the new values instead of preserving them. -/
theorem c2_single_finalization_overwrite (db : List TestRun) (rid : Nat)
    (st st2 : String) (p f p2 f2 now now2 : Nat)
    (h : (db.find? (fun r => r.id == rid)).isSome = true) :
    statusOf (finalize_test_run db rid st p f now).2 rid = some st ∧
    endTimeOf (finalize_test_run db rid st p f now).2 rid = some (some now) ∧
    statusOf (finalize_test_run (finalize_test_run db rid st p f now).2
      rid st2 p2 f2 now2).2 rid = some st2 ∧
    endTimeOf (finalize_test_run (finalize_test_run db rid st p f now).2
      rid st2 p2 f2 now2).2 rid = some (some now2) ∧
    (∀ obs stopFinal, (executeRobot rid obs stopFinal).finalizeCount = 1 ∧
      (executeRobot rid obs stopFinal).finalStatus ∈
        (["passed", "failed", "stopped", "error"] : List String)) := by
  have h1 := finalize_found db rid st p f now h
  have h2 := finalize_found (finalize_test_run db rid st p f now).2
    rid st2 p2 f2 now2 h1.2.2
  refine ⟨h1.1, h1.2.1, h2.1, h2.2.1, fun obs stopFinal => ?_⟩
  unfold executeRobot
  match hout : execLoop rid 0 obs accInit with
  | .ok acc =>
    refine ⟨rfl, ?_⟩
    unfold final_status_of
    cases stopFinal with
    | true => simp
    | false =>
      by_cases hf : acc.failed_total > 0
      · simp [hf]
      · simp [hf]
  | .error (msg, acc) => exact ⟨rfl, by simp⟩

/-- C2 witness: a concrete table with run 1 present, finalized then
re-finalized, and the execution task on an empty plan. -/
theorem c2_single_finalization_overwrite_witness :
    statusOf (finalize_test_run [⟨1, "running", 0, none, 0, 0, 0⟩]
      1 "passed" 1 0 5).2 1 = some "passed" ∧
    (executeRobot 1 [] false).finalizeCount = 1 := by
  have h := c2_single_finalization_overwrite [⟨1, "running", 0, none, 0, 0, 0⟩]
    1 "passed" "failed" 1 0 0 5 5 9 (by decide)
  exact ⟨h.1, (h.2.2.2.2 [] false).1⟩

/-! ## C4 — finalization status priority -/

/-- C4: when the execution loop exits normally the run is finalized with
exactly one status chosen by priority — `stopped` if cancellation was
requested, else `failed` if any executed iteration recorded failures, else
`passed` (cancellation always wins over failure); when the loop raises, the
run is finalized with status `error` and the exception is recorded as a
`RunnerError` fail-log entry; in both cases the task performs exactly one
finalization and returns normally — the exception never escapes. -/
theorem c4_final_status_priority (run_id : Nat) (obs : List IterObs)
    (stopAtFinal : Bool) :
    (∀ acc, execLoop run_id 0 obs accInit = .ok acc →
      (executeRobot run_id obs stopAtFinal).finalStatus =
        (if stopAtFinal then "stopped"
         else if acc.failed_total > 0 then "failed" else "passed") ∧
      (acc.failed_total > 0 ↔ ∃ x ∈ executedFails run_id obs, 0 < x)) ∧
    (∀ msg acc, execLoop run_id 0 obs accInit = .error (msg, acc) →
      (executeRobot run_id obs stopAtFinal).finalStatus = "error" ∧
      (msg, "RunnerError") ∈ (executeRobot run_id obs stopAtFinal).failLogs) ∧
    (executeRobot run_id obs stopAtFinal).finalizeCount = 1 := by
  refine ⟨fun acc hok => ?_, fun msg acc herr => ?_, ?_⟩
  · constructor
    · simp [executeRobot, hok, final_status_of]
    · have := execLoop_failed_total run_id obs 0 accInit acc hok
      rw [this]
      simp only [accInit]
      rw [show (0 : Nat) + (executedFails run_id obs).sum =
        (executedFails run_id obs).sum by omega]
      exact sum_pos_iff_exists _
  · simp [executeRobot, herr]
  · unfold executeRobot
    match hout : execLoop run_id 0 obs accInit with
    | .ok acc => rfl
    | .error (msg, acc) => rfl

/-- C4 witness: a plan whose single iteration raises is finalized with
status `error` and a `RunnerError` fail-log entry, and a stopped plan with
failures is finalized `stopped`, not `failed`. -/
theorem c4_final_status_priority_witness :
    (executeRobot 1 [⟨false, some "boom", 0, []⟩] false).finalStatus = "error" ∧
    ("boom", "RunnerError") ∈
      (executeRobot 1 [⟨false, some "boom", 0, []⟩] false).failLogs ∧
    (executeRobot 1 [⟨false, none, 3, []⟩] true).finalStatus = "stopped" := by
  have h1 := (c4_final_status_priority 1 [⟨false, some "boom", 0, []⟩] false).2.1
    "boom" accInit rfl
  have h2 := (c4_final_status_priority 1 [⟨false, none, 3, []⟩] true).1
    ⟨0, 1, [batchMsg 0 0 1 3], [(failMsg 1 0, "RobotFailure")]⟩ rfl
  exact ⟨h1.1, h1.2, by rw [h2.1]; decide⟩

end ATC
